import Mathlib

/-!
# Verification of the PicoDB storage core

This file gives a shallow embedding, in Lean 4, of the storage core of the
PicoDB embedded database engine and settles the specification claims about it:

* the two I/O queue implementations (the promise-chained queue of
  `src/internal/IOQueue.ts` and the bounded-worker queue draft);
* the Storage Manager's page arithmetic (`src/internal/StorageManager.ts`:
  `allocatePage`, `readPage`, `writePage`);
* the Buffer Pool Manager draft (`BufferPoolManager`): a two-list (history +
  cache) residency policy over JavaScript `Map`s, with pin counts, dirty
  tracking and write-back eviction;
* the FSM accessor (`src/internal/FSMCalculator.ts`).

Modelling conventions:

* A JavaScript `Map` is modelled as an association list `List (Nat × α)` in
  insertion order (head = oldest).  `Map.set` updates in place when the key is
  present and appends otherwise; `Map.delete` removes the entry; iteration
  order is list order.  These are exactly the guarantees of JS `Map`.
* Buffers (`node:buffer` `Buffer`) are byte lists `List Nat`.
* JS numbers used as pin counts are modelled as `Int` (they are incremented
  and decremented); page ids, sizes and offsets are `Nat`.
* `async` methods that mutate fields and may throw are embedded as functions
  `World → Except Err α × World`: the state component is returned on both the
  ok and the error path, so mutations performed before a throw persist, as
  they do on a JavaScript object.
* Storage Manager calls made by the buffer pool are abstracted by a
  `StorageEnv` giving each call's outcome; issued `writePage` calls are
  recorded in a `writes` trace so that "a write was issued" is observable.
-/

/-- Byte buffers (`node:buffer` `Buffer`) as lists of bytes. -/
abbrev Buf : Type := List Nat

/-- Error values thrown by the storage core: `RangeError` for programmer
errors, generic `Error` for buffer-pool overflow, and I/O failures surfaced
from the file system. -/
inductive Err where
  | bufferPoolOverflow : String → Err
  | rangeError : String → Err
  | ioError : String → Err
deriving DecidableEq

instance {ε α : Type} [DecidableEq ε] [DecidableEq α] : DecidableEq (Except ε α) := fun a b =>
  match a, b with
  | .ok x, .ok y =>
    if h : x = y then .isTrue (by rw [h])
    else .isFalse (fun c => h (Except.ok.inj c))
  | .error x, .error y =>
    if h : x = y then .isTrue (by rw [h])
    else .isFalse (fun c => h (Except.error.inj c))
  | .ok _, .error _ => .isFalse (fun c => Except.noConfusion c)
  | .error _, .ok _ => .isFalse (fun c => Except.noConfusion c)

/-- Whether an `Except` is a success. -/
def exceptIsOk {ε α : Type} : Except ε α → Bool
  | .ok _ => true
  | .error _ => false

/-! ## JavaScript `Map` as an insertion-ordered association list -/

/-- `Map.get`: value of the first (and, for well-formed maps, only) entry with
the given key. -/
def mapGet {α : Type} (m : List (Nat × α)) (k : Nat) : Option α :=
  match m with
  | [] => none
  | e :: es => if e.1 = k then some e.2 else mapGet es k

/-- `Map.has`. -/
def mapContains {α : Type} (m : List (Nat × α)) (k : Nat) : Bool :=
  (mapGet m k).isSome

/-- `Map.delete`: remove the entry with the given key (all of them, should an
ill-formed list hold duplicates). -/
def mapDelete {α : Type} (m : List (Nat × α)) (k : Nat) : List (Nat × α) :=
  match m with
  | [] => []
  | e :: es => if e.1 = k then mapDelete es k else e :: mapDelete es k

/-- The in-place-update pass used by `mapSet` when the key is present. -/
def mapReplace {α : Type} (m : List (Nat × α)) (k : Nat) (v : α) : List (Nat × α) :=
  match m with
  | [] => []
  | e :: es => (if e.1 = k then (k, v) else e) :: mapReplace es k v

/-- `Map.set`: update in place when the key is present (keeping its position),
append otherwise.  This is the JS `Map` insertion-order guarantee. -/
def mapSet {α : Type} (m : List (Nat × α)) (k : Nat) (v : α) : List (Nat × α) :=
  if mapContains m k then mapReplace m k v
  else m ++ [(k, v)]

/-- Keys of a map, in insertion order (`Map.keys()`). -/
def keysOf {α : Type} : List (Nat × α) → List Nat
  | [] => []
  | e :: es => e.1 :: keysOf es

/-- A well-formed map has no duplicate keys (true of every JS `Map`). -/
def MapWF {α : Type} (m : List (Nat × α)) : Prop :=
  (keysOf m).Nodup

theorem keysOf_append {α : Type} (m m' : List (Nat × α)) :
    keysOf (m ++ m') = keysOf m ++ keysOf m' := by
  induction m with
  | nil => simp [keysOf]
  | cons e es ih => simp [keysOf, ih]

theorem length_keysOf {α : Type} (m : List (Nat × α)) :
    (keysOf m).length = m.length := by
  induction m with
  | nil => simp [keysOf]
  | cons e es ih => simp [keysOf, ih]

theorem mapGet_eq_none_iff {α : Type} (m : List (Nat × α)) (k : Nat) :
    mapGet m k = none ↔ k ∉ keysOf m := by
  induction m with
  | nil => simp [mapGet, keysOf]
  | cons e es ih =>
    by_cases he : e.1 = k
    · simp [mapGet, keysOf, he]
    · simp only [mapGet, keysOf, he, if_false, ih, List.mem_cons]
      constructor
      · intro h hmem
        rcases hmem with hmem | hmem
        · exact he hmem.symm
        · exact h hmem
      · intro h hmem
        exact h (Or.inr hmem)

theorem mapGet_isSome_iff {α : Type} (m : List (Nat × α)) (k : Nat) :
    (mapGet m k).isSome = true ↔ k ∈ keysOf m := by
  rw [← Decidable.not_iff_not, ← mapGet_eq_none_iff m k]
  cases mapGet m k <;> simp

theorem mapContains_eq_false_iff {α : Type} (m : List (Nat × α)) (k : Nat) :
    mapContains m k = false ↔ k ∉ keysOf m := by
  unfold mapContains
  rw [← mapGet_isSome_iff m k]
  cases mapGet m k <;> simp

theorem mapGet_some_mem {α : Type} {m : List (Nat × α)} {k : Nat} {v : α}
    (h : mapGet m k = some v) : (k, v) ∈ m := by
  induction m with
  | nil => simp [mapGet] at h
  | cons e es ih =>
    obtain ⟨a, b⟩ := e
    by_cases he : a = k
    · simp [mapGet, he] at h
      subst he; subst h
      exact List.mem_cons_self _ _
    · simp [mapGet, he] at h
      exact List.mem_cons_of_mem _ (ih h)

theorem keysOf_mapReplace {α : Type} (m : List (Nat × α)) (k : Nat) (v : α) :
    keysOf (mapReplace m k v) = keysOf m := by
  induction m with
  | nil => simp [mapReplace, keysOf]
  | cons e es ih =>
    by_cases he : e.1 = k <;>
      simpa [mapReplace, keysOf, he] using ih

theorem mapGet_mapReplace_self {α : Type} {m : List (Nat × α)} {k : Nat} (v : α)
    (h : k ∈ keysOf m) : mapGet (mapReplace m k v) k = some v := by
  induction m with
  | nil => simp [keysOf] at h
  | cons e es ih =>
    by_cases he : e.1 = k
    · simp [mapReplace, mapGet, he]
    · simp only [keysOf, List.mem_cons] at h
      rcases h with h | h
      · exact absurd h.symm he
      · simp [mapReplace, mapGet, he] at ih ⊢
        exact ih h

theorem mapGet_mapReplace_ne {α : Type} (m : List (Nat × α)) (k k' : Nat) (v : α)
    (h : k' ≠ k) : mapGet (mapReplace m k v) k' = mapGet m k' := by
  induction m with
  | nil => simp [mapReplace, mapGet]
  | cons e es ih =>
    have hkk : ¬ (k = k') := fun hh => h hh.symm
    by_cases he : e.1 = k
    · have hne : ¬ (e.1 = k') := by rw [he]; exact hkk
      simp [mapReplace, mapGet, he, hne, hkk, ih]
    · by_cases he' : e.1 = k' <;> simp [mapReplace, mapGet, he, he', hkk, h, ih]

theorem mapGet_append_single_self {α : Type} {m : List (Nat × α)} {k : Nat} (v : α)
    (h : k ∉ keysOf m) : mapGet (m ++ [(k, v)]) k = some v := by
  induction m with
  | nil => simp [mapGet]
  | cons e es ih =>
    simp only [keysOf, List.mem_cons] at h
    push_neg at h
    have he : ¬ (e.1 = k) := fun hh => h.1 hh.symm
    simp only [List.cons_append, mapGet, he, if_false]
    exact ih h.2

theorem mapGet_append_single_ne {α : Type} (m : List (Nat × α)) (k k' : Nat) (v : α)
    (h : k' ≠ k) : mapGet (m ++ [(k, v)]) k' = mapGet m k' := by
  have hkk : ¬ (k = k') := fun hh => h hh.symm
  induction m with
  | nil => simp [mapGet, hkk]
  | cons e es ih =>
    by_cases he : e.1 = k' <;> simp [mapGet, he, ih]

theorem mapGet_mapSet_self {α : Type} (m : List (Nat × α)) (k : Nat) (v : α) :
    mapGet (mapSet m k v) k = some v := by
  unfold mapSet
  by_cases hc : mapContains m k = true
  · rw [if_pos hc]
    exact mapGet_mapReplace_self v ((mapGet_isSome_iff m k).1 hc)
  · rw [if_neg hc]
    have : k ∉ keysOf m := by
      rw [← mapContains_eq_false_iff]
      simpa using hc
    exact mapGet_append_single_self v this

theorem mapGet_mapSet_ne {α : Type} (m : List (Nat × α)) (k k' : Nat) (v : α)
    (h : k' ≠ k) : mapGet (mapSet m k v) k' = mapGet m k' := by
  unfold mapSet
  by_cases hc : mapContains m k = true
  · rw [if_pos hc]; exact mapGet_mapReplace_ne m k k' v h
  · rw [if_neg hc]; exact mapGet_append_single_ne m k k' v h

theorem keysOf_mapSet_mem {α : Type} (m : List (Nat × α)) (k : Nat) (v : α)
    (h : k ∈ keysOf m) : keysOf (mapSet m k v) = keysOf m := by
  unfold mapSet
  have hc : mapContains m k = true := by
    unfold mapContains
    exact (mapGet_isSome_iff m k).2 h
  rw [if_pos hc]
  exact keysOf_mapReplace m k v

theorem keysOf_mapSet_not_mem {α : Type} (m : List (Nat × α)) (k : Nat) (v : α)
    (h : k ∉ keysOf m) : keysOf (mapSet m k v) = keysOf m ++ [k] := by
  unfold mapSet
  have hc : mapContains m k = false := (mapContains_eq_false_iff m k).2 h
  rw [if_neg (by simp [hc]), keysOf_append]
  simp [keysOf]

theorem mem_keysOf_mapSet {α : Type} (m : List (Nat × α)) (k k' : Nat) (v : α) :
    k' ∈ keysOf (mapSet m k v) ↔ k' ∈ keysOf m ∨ k' = k := by
  by_cases h : k ∈ keysOf m
  · rw [keysOf_mapSet_mem m k v h]
    constructor
    · exact Or.inl
    · intro hh
      rcases hh with hh | hh
      · exact hh
      · rw [hh]; exact h
  · rw [keysOf_mapSet_not_mem m k v h]
    simp

theorem length_mapSet_mem {α : Type} (m : List (Nat × α)) (k : Nat) (v : α)
    (h : k ∈ keysOf m) : (mapSet m k v).length = m.length := by
  have h1 := keysOf_mapSet_mem m k v h
  have h2 : (keysOf (mapSet m k v)).length = (keysOf m).length := by rw [h1]
  rw [length_keysOf, length_keysOf] at h2
  exact h2

theorem length_mapSet_not_mem {α : Type} (m : List (Nat × α)) (k : Nat) (v : α)
    (h : k ∉ keysOf m) : (mapSet m k v).length = m.length + 1 := by
  have h1 := keysOf_mapSet_not_mem m k v h
  have h2 : (keysOf (mapSet m k v)).length = (keysOf m).length + 1 := by simp [h1]
  rw [length_keysOf, length_keysOf] at h2
  exact h2

theorem nodup_mapSet {α : Type} {m : List (Nat × α)} (k : Nat) (v : α)
    (h : MapWF m) : MapWF (mapSet m k v) := by
  unfold MapWF
  by_cases hk : k ∈ keysOf m
  · rw [keysOf_mapSet_mem m k v hk]; exact h
  · rw [keysOf_mapSet_not_mem m k v hk]
    simpa [List.nodup_append] using ⟨h, fun hh => hk hh⟩

theorem mem_mapReplace {α : Type} {m : List (Nat × α)} {k : Nat} {v : α} {e : Nat × α}
    (h : e ∈ mapReplace m k v) : e ∈ m ∨ e = (k, v) := by
  induction m with
  | nil => simp [mapReplace] at h
  | cons f fs ih =>
    simp only [mapReplace, List.mem_cons] at h
    rcases h with h | h
    · by_cases hf : f.1 = k
      · simp [hf] at h; exact Or.inr h
      · simp [hf] at h; exact Or.inl (by rw [h]; exact List.mem_cons_self _ _)
    · rcases ih h with h | h
      · exact Or.inl (List.mem_cons_of_mem _ h)
      · exact Or.inr h

theorem mem_mapSet {α : Type} {m : List (Nat × α)} {k : Nat} {v : α} {e : Nat × α}
    (h : e ∈ mapSet m k v) : e ∈ m ∨ e = (k, v) := by
  unfold mapSet at h
  by_cases hc : mapContains m k = true
  · rw [if_pos hc] at h
    exact mem_mapReplace h
  · rw [if_neg hc] at h
    rcases List.mem_append.1 h with h | h
    · exact Or.inl h
    · simp at h; exact Or.inr h

theorem mapGet_mapDelete_self {α : Type} (m : List (Nat × α)) (k : Nat) :
    mapGet (mapDelete m k) k = none := by
  induction m with
  | nil => simp [mapDelete, mapGet]
  | cons e es ih => by_cases he : e.1 = k <;> simp [mapDelete, mapGet, he, ih]

theorem mapGet_mapDelete_ne {α : Type} (m : List (Nat × α)) (k k' : Nat)
    (h : k' ≠ k) : mapGet (mapDelete m k) k' = mapGet m k' := by
  have hkk : ¬ (k = k') := fun hh => h hh.symm
  induction m with
  | nil => simp [mapDelete]
  | cons e es ih =>
    by_cases he : e.1 = k
    · have hne : ¬ (e.1 = k') := by rw [he]; exact hkk
      simp [mapDelete, mapGet, he, hne, hkk, ih]
    · by_cases he' : e.1 = k' <;> simp [mapDelete, mapGet, he, he', hkk, h, ih]

theorem mem_keysOf_mapDelete {α : Type} (m : List (Nat × α)) (k k' : Nat) :
    k' ∈ keysOf (mapDelete m k) ↔ k' ∈ keysOf m ∧ k' ≠ k := by
  induction m with
  | nil => simp [mapDelete, keysOf]
  | cons e es ih =>
    by_cases he : e.1 = k
    · simp only [mapDelete, he, if_true, ih, keysOf, List.mem_cons]
      constructor
      · intro h; exact ⟨Or.inr h.1, h.2⟩
      · intro h
        rcases h.1 with h1 | h1
        · exact absurd h1 h.2
        · exact ⟨h1, h.2⟩
    · simp only [mapDelete, he, if_false, keysOf, List.mem_cons, ih]
      constructor
      · intro h
        rcases h with h | h
        · refine ⟨Or.inl h, ?_⟩
          rw [h]; exact fun hh => he hh
        · exact ⟨Or.inr h.1, h.2⟩
      · intro h
        rcases h.1 with h1 | h1
        · exact Or.inl h1
        · exact Or.inr ⟨h1, h.2⟩

theorem nodup_mapDelete {α : Type} {m : List (Nat × α)} (k : Nat)
    (h : MapWF m) : MapWF (mapDelete m k) := by
  unfold MapWF at h ⊢
  induction m with
  | nil => simp [mapDelete, keysOf]
  | cons e es ih =>
    simp only [keysOf, List.nodup_cons] at h
    by_cases he : e.1 = k
    · simp only [mapDelete, he, if_true]; exact ih h.2
    · simp only [mapDelete, he, if_false, keysOf, List.nodup_cons]
      refine ⟨fun hmem => ?_, ih h.2⟩
      rw [mem_keysOf_mapDelete] at hmem
      exact h.1 hmem.1

theorem mapDelete_not_mem_eq {α : Type} {m : List (Nat × α)} {k : Nat}
    (h : k ∉ keysOf m) : mapDelete m k = m := by
  induction m with
  | nil => simp [mapDelete]
  | cons e es ih =>
    simp only [keysOf, List.mem_cons] at h
    push_neg at h
    have he : ¬ (e.1 = k) := fun hh => h.1 hh.symm
    simp [mapDelete, he, ih h.2]

theorem length_mapDelete_le {α : Type} (m : List (Nat × α)) (k : Nat) :
    (mapDelete m k).length ≤ m.length := by
  induction m with
  | nil => simp [mapDelete]
  | cons e es ih =>
    by_cases he : e.1 = k <;> simp [mapDelete, he] <;> omega

theorem length_mapDelete_mem {α : Type} {m : List (Nat × α)} {k : Nat}
    (hwf : MapWF m) (h : k ∈ keysOf m) :
    (mapDelete m k).length + 1 = m.length := by
  induction m with
  | nil => simp [keysOf] at h
  | cons e es ih =>
    unfold MapWF at hwf
    simp only [keysOf, List.nodup_cons] at hwf
    simp only [keysOf, List.mem_cons] at h
    by_cases he : e.1 = k
    · have hnm : k ∉ keysOf es := by rw [← he]; exact hwf.1
      simp [mapDelete, he, mapDelete_not_mem_eq hnm]
    · rcases h with h | h
      · exact absurd h.symm he
      · simp only [mapDelete, he, if_false, List.length_cons]
        have := ih hwf.2 h
        omega

theorem mem_mapDelete {α : Type} {m : List (Nat × α)} {k : Nat} {e : Nat × α}
    (h : e ∈ mapDelete m k) : e ∈ m := by
  induction m with
  | nil => simp [mapDelete] at h
  | cons f fs ih =>
    by_cases hf : f.1 = k
    · simp only [mapDelete, hf, if_true] at h
      exact List.mem_cons_of_mem _ (ih h)
    · simp only [mapDelete, hf, if_false, List.mem_cons] at h
      rcases h with h | h
      · rw [h]; exact List.mem_cons_self _ _
      · exact List.mem_cons_of_mem _ (ih h)

/-! ## I/O Queue models

Two implementations exist in the repository.

The promise-chained queue (`src/internal/IOQueue.ts`):

```ts
enqueue<T>(operation: () => Promise<T>): Promise<T> {
  const lastOperation = ... last element of #operationQueue, or Promise.resolve();
  const newOperation = lastOperation.then(() => operation());
  this.#operationQueue.push(newOperation);
  newOperation.finally(() => { remove newOperation from #operationQueue });
  return newOperation;
}
```

Because `lastOperation.then(cb)` installs no rejection handler, a rejected
`lastOperation` rejects `newOperation` with the same reason *without ever
invoking* `operation`.  `chainedRun` models a batch of tasks enqueued
back-to-back (all `enqueue` calls made before any promise settles, so each
chains onto its predecessor): each task is given by its own would-be outcome,
and the model returns, per task, whether its operation was actually invoked
and what its returned promise settles to. -/

/-- One link of the promise chain: given the settlement status of the
predecessor promise, a task's operation runs only if the predecessor
fulfilled; otherwise its promise rejects with the predecessor's reason. -/
def chainedGo {α : Type} (prev : Except Err Unit) :
    List (Except Err α) → List (Bool × Except Err α)
  | [] => []
  | t :: ts =>
    match prev with
    | .error e => (false, .error e) :: chainedGo (.error e) ts
    | .ok _ => (true, t) :: chainedGo (t.map (fun _ => ())) ts

/-- Settlements of a batch of tasks enqueued back-to-back on the
promise-chained queue; the chain head is `Promise.resolve()`. -/
def chainedRun {α : Type} (ts : List (Except Err α)) : List (Bool × Except Err α) :=
  chainedGo (.ok ()) ts

/-- Maximum number of in-flight tasks of the bounded queue
(`while (... && this.runningCount < 16)`). -/
def maxInFlight : Nat := 16

/-- Scheduler events for the queue transition systems: a task (identified by
a natural number) is enqueued, or an in-flight task finishes (settles). -/
inductive QEvent where
  | enq : Nat → QEvent
  | fin : Nat → QEvent
deriving DecidableEq

/-- State of the bounded-worker queue (`unnamed/part_001`): `pending` is the
`pending` array (FIFO), `running` the set of in-flight tasks (its length is
`runningCount`), `started` / `resolved` / `enqueued` record the order in which
tasks were started / settled / submitted. -/
structure BQState where
  pending : List Nat
  running : List Nat
  started : List Nat
  resolved : List Nat
  enqueued : List Nat
deriving DecidableEq

/-- One synchronous execution of `processQueue` of the bounded queue: the
`while` loop splices `min(pending.length, 16 - runningCount)` tasks off the
front of `pending` and starts each.  (After one splice either `pending` is
empty or `runningCount = 16`, so the loop body runs once.) -/
def bqDispatch (s : BQState) : BQState :=
  let k := min s.pending.length (maxInFlight - s.running.length)
  { s with pending := s.pending.drop k,
           running := s.running ++ s.pending.take k,
           started := s.started ++ s.pending.take k }

/-- Labelled transition of the started bounded queue.  `enqueue` pushes onto
`pending` and triggers `processQueue`; a task completion decrements
`runningCount` (`.finally`) and triggers `processQueue` again.  `none` marks
an impossible event (finishing a task that is not running). -/
def bqStep (s : BQState) : QEvent → Option BQState
  | .enq i => some (bqDispatch { s with pending := s.pending ++ [i], enqueued := s.enqueued ++ [i] })
  | .fin i =>
    if i ∈ s.running then
      some (bqDispatch { s with running := s.running.erase i, resolved := s.resolved ++ [i] })
    else none

/-- The empty queue state. -/
def qInit : BQState := ⟨[], [], [], [], []⟩

/-- Run a sequence of scheduler events on the bounded queue. -/
def bqRun (es : List QEvent) : Option BQState :=
  es.foldlM bqStep qInit

/-- State of the promise-chained queue, in the same vocabulary: at most one
operation is executing (`running`), the others wait for their predecessor
promise to settle (`pending`). -/
structure CQState where
  pending : List Nat
  running : List Nat
  started : List Nat
  resolved : List Nat
  enqueued : List Nat
deriving DecidableEq

/-- In the promise chain, operation `i+1` is started by the `.then` callback
when promise `i` settles, so a task starts only when nothing is executing. -/
def cqDispatch (s : CQState) : CQState :=
  match s.running, s.pending with
  | [], p :: rest =>
    { s with pending := rest, running := [p], started := s.started ++ [p] }
  | _, _ => s

/-- Labelled transition of the promise-chained queue. -/
def cqStep (s : CQState) : QEvent → Option CQState
  | .enq i => some (cqDispatch { s with pending := s.pending ++ [i], enqueued := s.enqueued ++ [i] })
  | .fin i =>
    if s.running = [i] then
      some (cqDispatch { s with running := [], resolved := s.resolved ++ [i] })
    else none

/-- Run a sequence of scheduler events on the promise-chained queue. -/
def cqRun (es : List QEvent) : Option CQState :=
  es.foldlM cqStep ⟨[], [], [], [], []⟩

/-- Inductive invariant of the bounded queue: at most 16 tasks in flight, and
tasks are started in submission order (`started` followed by the still-waiting
`pending` tasks is exactly the submission order). -/
def BQInv (s : BQState) : Prop :=
  s.running.length ≤ maxInFlight ∧ s.started ++ s.pending = s.enqueued

/-- Inductive invariant of the chained queue: at most one task executing, and
tasks settle in submission order (`resolved` is always a prefix of the
submission order). -/
def CQInv (s : CQState) : Prop :=
  s.running.length ≤ 1 ∧ s.resolved ++ (s.running ++ s.pending) = s.enqueued

theorem bqDispatch_inv {s : BQState} (h : BQInv s) : BQInv (bqDispatch s) := by
  obtain ⟨h1, h2⟩ := h
  unfold bqDispatch BQInv
  constructor
  · simp only [List.length_append, List.length_take]
    have : min s.pending.length (maxInFlight - s.running.length) ≤ maxInFlight - s.running.length :=
      min_le_right _ _
    omega
  · simp only [List.append_assoc, List.take_append_drop]
    exact h2

theorem bqStep_inv {s s' : BQState} {e : QEvent} (h : BQInv s)
    (hs : bqStep s e = some s') : BQInv s' := by
  obtain ⟨h1, h2⟩ := h
  cases e with
  | enq i =>
    simp only [bqStep, Option.some.injEq] at hs
    subst hs
    apply bqDispatch_inv
    constructor
    · exact h1
    · simp only [← List.append_assoc, h2]
  | fin i =>
    simp only [bqStep] at hs
    by_cases hi : i ∈ s.running
    · rw [if_pos hi] at hs
      simp only [Option.some.injEq] at hs
      subst hs
      apply bqDispatch_inv
      constructor
      · exact le_trans (s.running.erase_sublist i).length_le h1
      · exact h2
    · rw [if_neg hi] at hs
      exact absurd hs (by simp)


theorem foldlM_option_inv {σ τ : Type} {P : σ → Prop} {step : σ → τ → Option σ}
    (hstep : ∀ s e s', P s → step s e = some s' → P s') :
    ∀ (es : List τ) (s0 s : σ), P s0 → List.foldlM step s0 es = some s → P s := by
  intro es
  induction es with
  | nil =>
    intro s0 s h0 h
    rw [List.foldlM_nil, show (pure s0 : Option σ) = some s0 from rfl] at h
    exact (Option.some.inj h) ▸ h0
  | cons e es ih =>
    intro s0 s h0 h
    rw [List.foldlM_cons] at h
    cases hs1 : step s0 e with
    | none =>
      rw [hs1, show ((none : Option σ) >>= fun s1 => List.foldlM step s1 es) = none from rfl] at h
      exact absurd h (by simp)
    | some s1 =>
      rw [hs1, show ((some s1 : Option σ) >>= fun s1 => List.foldlM step s1 es) =
        List.foldlM step s1 es from rfl] at h
      exact ih s1 s (hstep s0 e s1 h0 hs1) h

theorem bqRun_inv {es : List QEvent} {s : BQState} (h : bqRun es = some s) :
    BQInv s := by
  have init : BQInv qInit := by constructor <;> simp [qInit, maxInFlight]
  exact foldlM_option_inv (fun s e s' hP hs => bqStep_inv hP hs) es qInit s init h

theorem cqDispatch_inv {s : CQState} (h : CQInv s) : CQInv (cqDispatch s) := by
  obtain ⟨h1, h2⟩ := h
  unfold CQInv cqDispatch
  split
  · next p rest hrun hpend =>
    refine ⟨by simp, ?_⟩
    rw [hrun, hpend] at h2
    simpa using h2
  · exact ⟨h1, h2⟩

theorem cqStep_inv {s s' : CQState} {e : QEvent} (h : CQInv s)
    (hs : cqStep s e = some s') : CQInv s' := by
  obtain ⟨h1, h2⟩ := h
  cases e with
  | enq i =>
    simp only [cqStep, Option.some.injEq] at hs
    subst hs
    apply cqDispatch_inv
    refine ⟨h1, ?_⟩
    simp only [← List.append_assoc] at h2 ⊢
    rw [h2]
  | fin i =>
    simp only [cqStep] at hs
    by_cases hi : s.running = [i]
    · rw [if_pos hi] at hs
      simp only [Option.some.injEq] at hs
      subst hs
      apply cqDispatch_inv
      refine ⟨by simp, ?_⟩
      simp only [List.nil_append, List.append_assoc] at h2 ⊢
      rw [← h2, hi]
    · rw [if_neg hi] at hs
      exact absurd hs (by simp)

theorem cqRun_inv {es : List QEvent} {s : CQState} (h : cqRun es = some s) :
    CQInv s := by
  have init : CQInv ⟨[], [], [], [], []⟩ := by constructor <;> simp
  exact foldlM_option_inv (fun s e s' hP hs => cqStep_inv hP hs) es _ s init h

/-! ## Storage Manager file model (`src/internal/StorageManager.ts`)

The data file is a byte list.  A positional write at offset `pos` replaces the
bytes `pos .. pos + data.length - 1`, zero-filling the gap should `pos` lie
beyond the end of the file; a positional read fills a zeroed buffer with the
bytes that exist (bytes beyond the end of the file stay 0, as they do in a
freshly `Buffer.alloc`ed buffer after a short `read`). -/

/-- Positional write (`FileHandle.write(data, 0, n, pos)`). -/
def fileWriteAt (f : List Nat) (pos : Nat) (data : List Nat) : List Nat :=
  f.take pos ++ List.replicate (pos - f.length) 0 ++ data ++ f.drop (pos + data.length)

/-- Positional read of `n` bytes (`FileHandle.read(Buffer.alloc(n), 0, n, pos)`). -/
def fileReadAt (f : List Nat) (pos n : Nat) : List Nat :=
  (List.range n).map (fun i => (f.getD (pos + i) 0))

/-- `StorageManager.allocatePage`: stat the file, compute
`pageIndex = floor(size / pageSize)`, append `pageSize` zero bytes at the old
end of file, return the index.  (Queue serialization makes the
stat-then-write sequence atomic for the purposes of this model.) -/
def SMallocatePage (ps : Nat) (f : List Nat) : Nat × List Nat :=
  let size := f.length
  let pageIndex := size / ps
  (pageIndex, fileWriteAt f size (List.replicate ps 0))

/-- `StorageManager.readPage`: read `pageSize` bytes at
`position = pageIndex * pageSize + 4`. -/
def SMreadPage (ps : Nat) (f : List Nat) (pageIndex : Nat) : List Nat :=
  fileReadAt f (pageIndex * ps + 4) ps

/-- `StorageManager.writePage`: reject a buffer whose length differs from
`pageSize`, else write it at `position = pageIndex * pageSize + 4`. -/
def SMwritePage (ps : Nat) (f : List Nat) (pageIndex : Nat) (data : List Nat) :
    Except Err (List Nat) :=
  if data.length ≠ ps then
    .error (.rangeError "Data length does not match page size.")
  else
    .ok (fileWriteAt f (pageIndex * ps + 4) data)

theorem fileWriteAt_append (f : List Nat) (data : List Nat) :
    fileWriteAt f f.length data = f ++ data := by
  unfold fileWriteAt
  rw [List.take_length, Nat.sub_self]
  simp [List.drop_eq_nil_of_le (by omega : f.length ≤ f.length + data.length)]

/-! ## Buffer Pool Manager (`BufferPoolManager` draft)

State embedding of

```ts
class BufferPoolManager {
  cache: Map<number, Buffer> = new Map();
  historyList: Map<number, Buffer> = new Map();
  dirtyList: Map<number, boolean> = new Map();
  pinCounts: Map<number, number> = new Map();
  cacheSize: number;        // 3 * floor(size / 4)
  historyListSize: number;  // floor(size / 4)
  ...
}
```

Storage Manager calls made by the pool (`allocatePage`, `readPage`,
`writePage`) are abstracted by a `StorageEnv` fixing each call's outcome;
every issued `writePage` call is appended to a `writes` trace.  Each `async`
method is a function `World → Except Err α × World`; field mutations
performed before an `await` that throws remain visible in the returned state,
exactly as on the JavaScript object. -/

/-- The four `Map`-valued fields of `BufferPoolManager`. -/
structure BPState where
  cache : List (Nat × Buf)
  historyList : List (Nat × Buf)
  dirtyList : List (Nat × Bool)
  pinCounts : List (Nat × Int)
deriving DecidableEq

/-- A buffer-pool state together with the trace of `manager.writePage` calls
issued so far (page id and the buffer passed). -/
structure World where
  bp : BPState
  writes : List (Nat × Buf)
deriving DecidableEq

/-- Derived size bounds of the constructor: `historyListSize = floor(size/4)`,
`cacheSize = 3 * floor(size/4)`. -/
structure BPConfig where
  cacheSize : Nat
  historyListSize : Nat

/-- `new BufferPoolManager(size)` (for `size ≥ 4`, an integer). -/
def BPConfig.ofSize (size : Nat) : BPConfig :=
  { cacheSize := (size / 4) * 3, historyListSize := size / 4 }

/-- Outcomes of the Storage Manager calls the buffer pool makes.
`readPage`/`writePage` may depend on the page id (and the written data);
`allocatePage` is a single outcome, adequate for single-operation theorems. -/
structure StorageEnv where
  pageSize : Nat
  allocatePage : Except Err Nat
  readPage : Nat → Except Err Buf
  writePage : Nat → Buf → Except Err Unit

/-- `(this.pinCounts.get(id) ?? 0)`. -/
def pinOf (bp : BPState) (k : Nat) : Int :=
  (mapGet bp.pinCounts k).getD 0

/-- `this.dirtyList.get(id)` used as a truthy test: only the value `true` is
truthy (`undefined` and `false` are falsy). -/
def dirtyOf (bp : BPState) (k : Nat) : Bool :=
  (mapGet bp.dirtyList k).getD false

/-- Error message of `evictFromHistory`'s overflow throw. -/
def historyOverflowMsg : String := "Buffer Pool Overflow: All pages in history are pinned."

/-- Error message of `evictFromCache`'s overflow throw. -/
def cacheOverflowMsg : String := "Buffer Pool Overflow: All pages in cache are pinned."

/-- Body of `evictFromHistory`'s loop once an unpinned victim is found:
write the victim back if dirty (awaited; on success delete its dirty flag),
then remove it from the history list and drop its pin-count entry. -/
def histEvictAct (env : StorageEnv) (w : World) (victimId : Nat) :
    Except Err Unit × World :=
  if dirtyOf w.bp victimId then
    match env.writePage victimId ((mapGet w.bp.historyList victimId).getD []) with
    | .error e =>
      (.error e,
        { w with writes := w.writes ++ [(victimId, (mapGet w.bp.historyList victimId).getD [])] })
    | .ok _ =>
      (.ok (),
        { bp := { cache := w.bp.cache,
                  historyList := mapDelete w.bp.historyList victimId,
                  dirtyList := mapDelete w.bp.dirtyList victimId,
                  pinCounts := mapDelete w.bp.pinCounts victimId },
          writes := w.writes ++ [(victimId, (mapGet w.bp.historyList victimId).getD [])] })
  else
    (.ok (), { w with bp := { w.bp with
        historyList := mapDelete w.bp.historyList victimId,
        pinCounts := mapDelete w.bp.pinCounts victimId } })

/-- `evictFromHistory`'s `while` loop over the history list's key iterator:
skip entries with a positive pin count, act on the first unpinned one, throw
`Buffer Pool Overflow` if the iterator is exhausted. -/
def histEvictLoop (env : StorageEnv) (w : World) : List Nat → Except Err Unit × World
  | [] => (.error (.bufferPoolOverflow historyOverflowMsg), w)
  | victimId :: rest =>
    if 0 < pinOf w.bp victimId then histEvictLoop env w rest
    else histEvictAct env w victimId

/-- `BufferPoolManager.evictFromHistory`. -/
def evictFromHistory (env : StorageEnv) (w : World) : Except Err Unit × World :=
  histEvictLoop env w (keysOf w.bp.historyList)

/-- Body of `evictFromCache`'s loop once an unpinned victim is found. -/
def cacheEvictAct (env : StorageEnv) (w : World) (victimId : Nat) :
    Except Err Unit × World :=
  if dirtyOf w.bp victimId then
    match env.writePage victimId ((mapGet w.bp.cache victimId).getD []) with
    | .error e =>
      (.error e,
        { w with writes := w.writes ++ [(victimId, (mapGet w.bp.cache victimId).getD [])] })
    | .ok _ =>
      (.ok (),
        { bp := { cache := mapDelete w.bp.cache victimId,
                  historyList := w.bp.historyList,
                  dirtyList := mapDelete w.bp.dirtyList victimId,
                  pinCounts := mapDelete w.bp.pinCounts victimId },
          writes := w.writes ++ [(victimId, (mapGet w.bp.cache victimId).getD [])] })
  else
    (.ok (), { w with bp := { w.bp with
        cache := mapDelete w.bp.cache victimId,
        pinCounts := mapDelete w.bp.pinCounts victimId } })

/-- `evictFromCache`'s loop over the cache's key iterator. -/
def cacheEvictLoop (env : StorageEnv) (w : World) : List Nat → Except Err Unit × World
  | [] => (.error (.bufferPoolOverflow cacheOverflowMsg), w)
  | victimId :: rest =>
    if 0 < pinOf w.bp victimId then cacheEvictLoop env w rest
    else cacheEvictAct env w victimId

/-- `BufferPoolManager.evictFromCache`. -/
def evictFromCache (env : StorageEnv) (w : World) : Except Err Unit × World :=
  cacheEvictLoop env w (keysOf w.bp.cache)

/-- The unconditional first line of `getPage`:
`this.pinCounts.set(pageId, (this.pinCounts.get(pageId) ?? 0) + 1)`. -/
def bumpPin (bp : BPState) (pageId : Nat) : BPState :=
  { bp with pinCounts := mapSet bp.pinCounts pageId (pinOf bp pageId + 1) }

/-- The part of `BufferPoolManager.getPage` after the initial pin-count
increment: a cache hit is touched (delete + set moves the entry to the tail);
a history hit is promoted to the cache (evicting from the cache if it is at
capacity); a miss reads through the Storage Manager into the history list
(evicting from the history list if it is at capacity). -/
def getPageBody (cfg : BPConfig) (env : StorageEnv) (pageId : Nat) (w : World) :
    Except Err Buf × World :=
  match mapGet w.bp.cache pageId with
  | some data =>
    (.ok data, { w with bp := { w.bp with
        cache := mapSet (mapDelete w.bp.cache pageId) pageId data } })
  | none =>
    if mapContains w.bp.historyList pageId then
      match (if cfg.cacheSize ≤ w.bp.cache.length then evictFromCache env w else (.ok (), w)) with
      | (.error e, w1) => (.error e, w1)
      | (.ok _, w1) =>
        let data := (mapGet w1.bp.historyList pageId).getD []
        (.ok data, { w1 with bp := { w1.bp with
            cache := mapSet w1.bp.cache pageId data,
            historyList := mapDelete w1.bp.historyList pageId } })
    else
      match (if cfg.historyListSize ≤ w.bp.historyList.length then evictFromHistory env w else (.ok (), w)) with
      | (.error e, w1) => (.error e, w1)
      | (.ok _, w1) =>
        match env.readPage pageId with
        | .error e => (.error e, w1)
        | .ok buf =>
          let hist := mapSet w1.bp.historyList pageId buf
          ((.ok ((mapGet hist pageId).getD [])),
            { w1 with bp := { w1.bp with historyList := hist } })

/-- `BufferPoolManager.getPage`: increment the pin count unconditionally
(`this.pinCounts.set(pageId, (this.pinCounts.get(pageId) ?? 0) + 1)`), then
serve the page from the cache, the history list, or the Storage Manager. -/
def getPage (cfg : BPConfig) (env : StorageEnv) (pageId : Nat) (w : World) :
    Except Err Buf × World :=
  getPageBody cfg env pageId { w with bp := bumpPin w.bp pageId }

/-- `BufferPoolManager.createPage`: allocate a page id through the Storage
Manager, evict from the history list if it is at capacity, insert a zeroed
buffer with `pinCount = 1` and `dirty = true`. -/
def createPage (cfg : BPConfig) (env : StorageEnv) (w : World) :
    Except Err (Nat × Buf) × World :=
  match env.allocatePage with
  | .error e => (.error e, w)
  | .ok pageId =>
    match (if cfg.historyListSize ≤ w.bp.historyList.length then evictFromHistory env w else (.ok (), w)) with
    | (.error e, w1) => (.error e, w1)
    | (.ok _, w1) =>
      let buffer : Buf := List.replicate env.pageSize 0
      (.ok (pageId, buffer), { w1 with bp := { w1.bp with
          historyList := mapSet w1.bp.historyList pageId buffer,
          pinCounts := mapSet w1.bp.pinCounts pageId 1,
          dirtyList := mapSet w1.bp.dirtyList pageId true } })

/-- `BufferPoolManager.unpinPage`: decrement the pin count when it is
positive; when `isDirty` is passed, set the dirty flag unconditionally. -/
def unpinPage (pageId : Nat) (isDirty : Bool) (w : World) : World :=
  let count := pinOf w.bp pageId
  let w := if 0 < count then
      { w with bp := { w.bp with pinCounts := mapSet w.bp.pinCounts pageId (count - 1) } }
    else w
  if isDirty then
    { w with bp := { w.bp with dirtyList := mapSet w.bp.dirtyList pageId true } }
  else w

/-- Loop body of `flushAll`: for an entry whose dirty flag is `true`, issue
`manager.writePage(pageId, buffer)` (recorded in the trace, **not awaited**)
and set the dirty flag to `false` immediately. -/
def flushStep (acc : World) (e : Nat × Buf) : World :=
  if (mapGet acc.bp.dirtyList e.1).getD false then
    { acc with writes := acc.writes ++ [e],
               bp := { acc.bp with dirtyList := mapSet acc.bp.dirtyList e.1 false } }
  else acc

/-- `BufferPoolManager.flushAll`: snapshot all resident entries
(`[...historyList.entries(), ...cache.entries()]`) and run `flushStep` on
each.  The source does not await the issued writes, so the returned state
never depends on whether any issued write later succeeds or fails. -/
def flushAll (w : World) : World :=
  (w.bp.historyList ++ w.bp.cache).foldl flushStep w

/-! ## FSM accessor (`src/internal/FSMCalculator.ts`)

`FSMCalculator` holds `pageSize = bpm.manager.header.pageSize` (the spec notes
that the Storage Manager drafts do not yet expose this field; it is passed
here as the parameter `ps`).  Both accessors address the byte at offset
`pageId % pageSize` of the FSM page `floor(pageId / pageSize) * pageSize`. -/

/-- `buffer.readUInt8(offset)`.  (Node throws on an out-of-range offset; the
theorems below only apply it within bounds, where this total model agrees.) -/
def readUInt8 (b : Buf) (offset : Nat) : Nat :=
  b.getD offset 0

/-- `buffer.writeUInt8(value, offset)` as in-place mutation of the byte at
`offset`.  (Node validates `0 ≤ value ≤ 255` and the offset; the theorems
below only apply it within those bounds.) -/
def writeUInt8 (b : Buf) (value offset : Nat) : Buf :=
  b.set offset value

/-- The buffer `getPage` hands out is the very object stored in the residency
list (cache first, as `getPage` checks the cache first), so an in-place
`writeUInt8` on it mutates the stored entry: update the cache entry when the
page is cached, else the history entry. -/
def mutatePage (bp : BPState) (pageId : Nat) (b : Buf) : BPState :=
  if mapContains bp.cache pageId then
    { bp with cache := mapSet bp.cache pageId b }
  else
    { bp with historyList := mapSet bp.historyList pageId b }

/-- The stored buffer a `getPage` call on a resident page returns (cache
takes precedence, as `getPage` checks `cache.has` first). -/
def residentBuf (bp : BPState) (pageId : Nat) : Option Buf :=
  match mapGet bp.cache pageId with
  | some b => some b
  | none => mapGet bp.historyList pageId

/-- `FSMCalculator.getUsedSpacePercent`: pin FSM page
`floor(pageId / pageSize) * pageSize` via the buffer pool, read the byte at
offset `pageId % pageSize`, unpin (clean), return the byte. -/
def getUsedSpacePercent (cfg : BPConfig) (env : StorageEnv) (ps : Nat)
    (pageId : Nat) (w : World) : Except Err Nat × World :=
  match getPage cfg env ((pageId / ps) * ps) w with
  | (.error e, w1) => (.error e, w1)
  | (.ok fsmPage, w1) =>
    (.ok (readUInt8 fsmPage (pageId % ps)), unpinPage ((pageId / ps) * ps) false w1)

/-- `FSMCalculator.setUsedSpacePercent`: same addressing; write the byte in
place, unpin marked dirty. -/
def setUsedSpacePercent (cfg : BPConfig) (env : StorageEnv) (ps : Nat)
    (pageId : Nat) (usedSpacePercent : Nat) (w : World) : Except Err Unit × World :=
  match getPage cfg env ((pageId / ps) * ps) w with
  | (.error e, w1) => (.error e, w1)
  | (.ok fsmPage, w1) =>
    (.ok (), unpinPage ((pageId / ps) * ps) true
      { w1 with
        bp := mutatePage w1.bp ((pageId / ps) * ps) (writeUInt8 fsmPage usedSpacePercent (pageId % ps)) })

/-! ## Eviction characterization -/

/-- The predicate of the eviction scan: an entry is a candidate victim when
its pin count (defaulting to 0) is not positive. -/
def unpinnedIn (bp : BPState) (k : Nat) : Bool :=
  !decide (0 < pinOf bp k)

theorem histEvictLoop_eq_find (env : StorageEnv) (w : World) (ks : List Nat) :
    histEvictLoop env w ks =
      match ks.find? (unpinnedIn w.bp) with
      | none => (.error (.bufferPoolOverflow historyOverflowMsg), w)
      | some v => histEvictAct env w v := by
  induction ks with
  | nil => simp [histEvictLoop]
  | cons k rest ih =>
    by_cases hp : 0 < pinOf w.bp k
    · have hpred : unpinnedIn w.bp k = false := by simp [unpinnedIn, hp]
      rw [List.find?_cons_of_neg _ (by simp [hpred])]
      simpa [histEvictLoop, hp] using ih
    · have hpred : unpinnedIn w.bp k = true := by simp [unpinnedIn, hp]
      rw [List.find?_cons_of_pos _ hpred]
      simp [histEvictLoop, hp]

theorem cacheEvictLoop_eq_find (env : StorageEnv) (w : World) (ks : List Nat) :
    cacheEvictLoop env w ks =
      match ks.find? (unpinnedIn w.bp) with
      | none => (.error (.bufferPoolOverflow cacheOverflowMsg), w)
      | some v => cacheEvictAct env w v := by
  induction ks with
  | nil => simp [cacheEvictLoop]
  | cons k rest ih =>
    by_cases hp : 0 < pinOf w.bp k
    · have hpred : unpinnedIn w.bp k = false := by simp [unpinnedIn, hp]
      rw [List.find?_cons_of_neg _ (by simp [hpred])]
      simpa [cacheEvictLoop, hp] using ih
    · have hpred : unpinnedIn w.bp k = true := by simp [unpinnedIn, hp]
      rw [List.find?_cons_of_pos _ hpred]
      simp [cacheEvictLoop, hp]

theorem evictFromHistory_eq (env : StorageEnv) (w : World) :
    evictFromHistory env w =
      match (keysOf w.bp.historyList).find? (unpinnedIn w.bp) with
      | none => (.error (.bufferPoolOverflow historyOverflowMsg), w)
      | some v => histEvictAct env w v :=
  histEvictLoop_eq_find env w _

theorem evictFromCache_eq (env : StorageEnv) (w : World) :
    evictFromCache env w =
      match (keysOf w.bp.cache).find? (unpinnedIn w.bp) with
      | none => (.error (.bufferPoolOverflow cacheOverflowMsg), w)
      | some v => cacheEvictAct env w v :=
  cacheEvictLoop_eq_find env w _

theorem evictFromHistory_none {env : StorageEnv} {w : World}
    (hf : (keysOf w.bp.historyList).find? (unpinnedIn w.bp) = none) :
    evictFromHistory env w = (.error (.bufferPoolOverflow historyOverflowMsg), w) := by
  rw [evictFromHistory_eq, hf]

theorem evictFromHistory_some {env : StorageEnv} {w : World} {v : Nat}
    (hf : (keysOf w.bp.historyList).find? (unpinnedIn w.bp) = some v) :
    evictFromHistory env w = histEvictAct env w v := by
  rw [evictFromHistory_eq, hf]

theorem evictFromCache_none {env : StorageEnv} {w : World}
    (hf : (keysOf w.bp.cache).find? (unpinnedIn w.bp) = none) :
    evictFromCache env w = (.error (.bufferPoolOverflow cacheOverflowMsg), w) := by
  rw [evictFromCache_eq, hf]

theorem evictFromCache_some {env : StorageEnv} {w : World} {v : Nat}
    (hf : (keysOf w.bp.cache).find? (unpinnedIn w.bp) = some v) :
    evictFromCache env w = cacheEvictAct env w v := by
  rw [evictFromCache_eq, hf]

theorem histEvictAct_error_bp {env : StorageEnv} {w : World} {v : Nat} {e : Err}
    (h : (histEvictAct env w v).1 = .error e) :
    (histEvictAct env w v).2.bp = w.bp := by
  unfold histEvictAct at h ⊢
  by_cases hd : dirtyOf w.bp v = true
  · rw [if_pos hd] at h ⊢
    cases hw : env.writePage v ((mapGet w.bp.historyList v).getD []) with
    | error e' => rfl
    | ok u => rw [hw] at h; exact absurd h (by simp)
  · rw [if_neg hd] at h
    exact absurd h (by simp)

theorem cacheEvictAct_error_bp {env : StorageEnv} {w : World} {v : Nat} {e : Err}
    (h : (cacheEvictAct env w v).1 = .error e) :
    (cacheEvictAct env w v).2.bp = w.bp := by
  unfold cacheEvictAct at h ⊢
  by_cases hd : dirtyOf w.bp v = true
  · rw [if_pos hd] at h ⊢
    cases hw : env.writePage v ((mapGet w.bp.cache v).getD []) with
    | error e' => rfl
    | ok u => rw [hw] at h; exact absurd h (by simp)
  · rw [if_neg hd] at h
    exact absurd h (by simp)

theorem evictFromHistory_error_bp {env : StorageEnv} {w : World} {e : Err}
    (h : (evictFromHistory env w).1 = .error e) :
    (evictFromHistory env w).2.bp = w.bp := by
  cases hf : (keysOf w.bp.historyList).find? (unpinnedIn w.bp) with
  | none => rw [evictFromHistory_none hf]
  | some v =>
    rw [evictFromHistory_some hf] at h ⊢
    exact histEvictAct_error_bp h

theorem evictFromCache_error_bp {env : StorageEnv} {w : World} {e : Err}
    (h : (evictFromCache env w).1 = .error e) :
    (evictFromCache env w).2.bp = w.bp := by
  cases hf : (keysOf w.bp.cache).find? (unpinnedIn w.bp) with
  | none => rw [evictFromCache_none hf]
  | some v =>
    rw [evictFromCache_some hf] at h ⊢
    exact cacheEvictAct_error_bp h

theorem evictFromHistory_ok_shape {env : StorageEnv} {w : World} {u : Unit} {w' : World}
    (h : evictFromHistory env w = (.ok u, w')) :
    ∃ v, v ∈ keysOf w.bp.historyList ∧ ¬ (0 < pinOf w.bp v) ∧
      w'.bp.cache = w.bp.cache ∧
      w'.bp.historyList = mapDelete w.bp.historyList v ∧
      w'.bp.pinCounts = mapDelete w.bp.pinCounts v ∧
      (w'.bp.dirtyList = mapDelete w.bp.dirtyList v ∨ w'.bp.dirtyList = w.bp.dirtyList) := by
  cases hf : (keysOf w.bp.historyList).find? (unpinnedIn w.bp) with
  | none =>
    rw [evictFromHistory_none hf] at h
    have h1 : (Except.error (Err.bufferPoolOverflow historyOverflowMsg) : Except Err Unit) = .ok u :=
      congrArg Prod.fst h
    exact Except.noConfusion h1
  | some v =>
    rw [evictFromHistory_some hf] at h
    refine ⟨v, List.mem_of_find?_eq_some hf, ?_, ?_⟩
    · have := List.find?_some hf
      simpa [unpinnedIn] using this
    · unfold histEvictAct at h
      by_cases hd : dirtyOf w.bp v = true
      · rw [if_pos hd] at h
        cases hw : env.writePage v ((mapGet w.bp.historyList v).getD []) with
        | error e' =>
          rw [hw] at h
          have h1 : (Except.error e' : Except Err Unit) = .ok u := congrArg Prod.fst h
          exact Except.noConfusion h1
        | ok u' =>
          rw [hw] at h
          have h2 := congrArg Prod.snd h
          simp only at h2
          rw [← h2]
          exact ⟨rfl, rfl, rfl, Or.inl rfl⟩
      · rw [if_neg hd] at h
        have h2 := congrArg Prod.snd h
        simp only at h2
        rw [← h2]
        exact ⟨rfl, rfl, rfl, Or.inr rfl⟩

theorem evictFromCache_ok_shape {env : StorageEnv} {w : World} {u : Unit} {w' : World}
    (h : evictFromCache env w = (.ok u, w')) :
    ∃ v, v ∈ keysOf w.bp.cache ∧ ¬ (0 < pinOf w.bp v) ∧
      w'.bp.historyList = w.bp.historyList ∧
      w'.bp.cache = mapDelete w.bp.cache v ∧
      w'.bp.pinCounts = mapDelete w.bp.pinCounts v ∧
      (w'.bp.dirtyList = mapDelete w.bp.dirtyList v ∨ w'.bp.dirtyList = w.bp.dirtyList) := by
  cases hf : (keysOf w.bp.cache).find? (unpinnedIn w.bp) with
  | none =>
    rw [evictFromCache_none hf] at h
    have h1 : (Except.error (Err.bufferPoolOverflow cacheOverflowMsg) : Except Err Unit) = .ok u :=
      congrArg Prod.fst h
    exact Except.noConfusion h1
  | some v =>
    rw [evictFromCache_some hf] at h
    refine ⟨v, List.mem_of_find?_eq_some hf, ?_, ?_⟩
    · have := List.find?_some hf
      simpa [unpinnedIn] using this
    · unfold cacheEvictAct at h
      by_cases hd : dirtyOf w.bp v = true
      · rw [if_pos hd] at h
        cases hw : env.writePage v ((mapGet w.bp.cache v).getD []) with
        | error e' =>
          rw [hw] at h
          have h1 : (Except.error e' : Except Err Unit) = .ok u := congrArg Prod.fst h
          exact Except.noConfusion h1
        | ok u' =>
          rw [hw] at h
          have h2 := congrArg Prod.snd h
          simp only at h2
          rw [← h2]
          exact ⟨rfl, rfl, rfl, Or.inl rfl⟩
      · rw [if_neg hd] at h
        have h2 := congrArg Prod.snd h
        simp only at h2
        rw [← h2]
        exact ⟨rfl, rfl, rfl, Or.inr rfl⟩

/-! ## The buffer-pool invariants -/

/-- The quiescent-state invariants of the buffer pool: the two residency
lists are well-formed maps, a page id resides in at most one of them, the
lists respect their configured bounds, and every recorded pin count is
non-negative. -/
def BPInv (cfg : BPConfig) (bp : BPState) : Prop :=
  MapWF bp.cache ∧ MapWF bp.historyList ∧
  (∀ p ∈ keysOf bp.cache, p ∉ keysOf bp.historyList) ∧
  bp.historyList.length ≤ cfg.historyListSize ∧
  bp.cache.length ≤ cfg.cacheSize ∧
  (∀ e ∈ bp.pinCounts, 0 ≤ e.2)

instance (cfg : BPConfig) (bp : BPState) : Decidable (BPInv cfg bp) := by
  unfold BPInv MapWF
  infer_instance

theorem pinOf_nonneg {cfg : BPConfig} {bp : BPState} (h : BPInv cfg bp) (p : Nat) :
    0 ≤ pinOf bp p := by
  unfold pinOf
  cases hg : mapGet bp.pinCounts p with
  | none => simp
  | some v => simpa using h.2.2.2.2.2 (p, v) (mapGet_some_mem hg)

theorem evict_hist_inv {cfg : BPConfig} {env : StorageEnv} {w : World}
    (h : BPInv cfg w.bp) : BPInv cfg ((evictFromHistory env w).2).bp := by
  obtain ⟨hwfc, hwfh, hdisj, hlenh, hlenc, hpin⟩ := h
  cases hres : (evictFromHistory env w).1 with
  | error e =>
    rw [evictFromHistory_error_bp hres]
    exact ⟨hwfc, hwfh, hdisj, hlenh, hlenc, hpin⟩
  | ok u =>
    have hok : evictFromHistory env w = (.ok u, (evictFromHistory env w).2) := by
      rw [← hres]
    obtain ⟨v, hv, hp, hc, hh, hpins, hd⟩ := evictFromHistory_ok_shape hok
    refine ⟨?_, ?_, ?_, ?_, ?_, ?_⟩
    · rw [hc]; exact hwfc
    · rw [hh]; exact nodup_mapDelete _ hwfh
    · intro p hpc
      rw [hc] at hpc
      rw [hh]
      intro hph
      exact hdisj p hpc ((mem_keysOf_mapDelete _ _ _).1 hph).1
    · rw [hh]; exact le_trans (length_mapDelete_le _ _) hlenh
    · rw [hc]; exact hlenc
    · intro e he
      rw [hpins] at he
      exact hpin e (mem_mapDelete he)

theorem evict_cache_inv {cfg : BPConfig} {env : StorageEnv} {w : World}
    (h : BPInv cfg w.bp) : BPInv cfg ((evictFromCache env w).2).bp := by
  obtain ⟨hwfc, hwfh, hdisj, hlenh, hlenc, hpin⟩ := h
  cases hres : (evictFromCache env w).1 with
  | error e =>
    rw [evictFromCache_error_bp hres]
    exact ⟨hwfc, hwfh, hdisj, hlenh, hlenc, hpin⟩
  | ok u =>
    have hok : evictFromCache env w = (.ok u, (evictFromCache env w).2) := by
      rw [← hres]
    obtain ⟨v, hv, hp, hh, hc, hpins, hd⟩ := evictFromCache_ok_shape hok
    refine ⟨?_, ?_, ?_, ?_, ?_, ?_⟩
    · rw [hc]; exact nodup_mapDelete _ hwfc
    · rw [hh]; exact hwfh
    · intro p hpc
      rw [hc] at hpc
      rw [hh]
      exact hdisj p ((mem_keysOf_mapDelete _ _ _).1 hpc).1
    · rw [hh]; exact hlenh
    · rw [hc]; exact le_trans (length_mapDelete_le _ _) hlenc
    · intro e he
      rw [hpins] at he
      exact hpin e (mem_mapDelete he)

theorem bumpPin_inv {cfg : BPConfig} {bp : BPState} (p : Nat) (h : BPInv cfg bp) :
    BPInv cfg (bumpPin bp p) := by
  obtain ⟨hwfc, hwfh, hdisj, hlenh, hlenc, hpin⟩ := h
  refine ⟨hwfc, hwfh, hdisj, hlenh, hlenc, ?_⟩
  intro e he
  rcases mem_mapSet he with he' | he'
  · exact hpin e he'
  · rw [he']
    have := pinOf_nonneg ⟨hwfc, hwfh, hdisj, hlenh, hlenc, hpin⟩ p
    simp only
    omega

theorem unpinPage_inv {cfg : BPConfig} (p : Nat) (d : Bool) {w : World}
    (h : BPInv cfg w.bp) : BPInv cfg ((unpinPage p d w).bp) := by
  obtain ⟨hwfc, hwfh, hdisj, hlenh, hlenc, hpin⟩ := h
  unfold unpinPage
  have hdec : BPInv cfg ((if 0 < pinOf w.bp p then
      { w with bp := { w.bp with pinCounts := mapSet w.bp.pinCounts p (pinOf w.bp p - 1) } }
    else w) : World).bp := by
    by_cases hc : 0 < pinOf w.bp p
    · rw [if_pos hc]
      refine ⟨hwfc, hwfh, hdisj, hlenh, hlenc, ?_⟩
      intro e he
      rcases mem_mapSet he with he' | he'
      · exact hpin e he'
      · rw [he']; simp only; omega
    · rw [if_neg hc]
      exact ⟨hwfc, hwfh, hdisj, hlenh, hlenc, hpin⟩
  obtain ⟨g1, g2, g3, g4, g5, g6⟩ := hdec
  by_cases hd : d = true
  · simp only [hd, if_true]
    exact ⟨g1, g2, g3, g4, g5, g6⟩
  · simp only [hd, if_false]
    exact ⟨g1, g2, g3, g4, g5, g6⟩

theorem flushStep_fields (acc : World) (e : Nat × Buf) :
    (flushStep acc e).bp.cache = acc.bp.cache ∧
    (flushStep acc e).bp.historyList = acc.bp.historyList ∧
    (flushStep acc e).bp.pinCounts = acc.bp.pinCounts := by
  unfold flushStep
  by_cases hd : (mapGet acc.bp.dirtyList e.1).getD false = true
  · rw [if_pos hd]; exact ⟨rfl, rfl, rfl⟩
  · rw [if_neg hd]; exact ⟨rfl, rfl, rfl⟩

theorem foldl_flushStep_fields (entries : List (Nat × Buf)) :
    ∀ acc : World,
      (entries.foldl flushStep acc).bp.cache = acc.bp.cache ∧
      (entries.foldl flushStep acc).bp.historyList = acc.bp.historyList ∧
      (entries.foldl flushStep acc).bp.pinCounts = acc.bp.pinCounts := by
  induction entries with
  | nil => intro acc; exact ⟨rfl, rfl, rfl⟩
  | cons e es ih =>
    intro acc
    rw [List.foldl_cons]
    obtain ⟨h1, h2, h3⟩ := ih (flushStep acc e)
    obtain ⟨g1, g2, g3⟩ := flushStep_fields acc e
    exact ⟨by rw [h1, g1], by rw [h2, g2], by rw [h3, g3]⟩

theorem flushAll_fields (w : World) :
    (flushAll w).bp.cache = w.bp.cache ∧
    (flushAll w).bp.historyList = w.bp.historyList ∧
    (flushAll w).bp.pinCounts = w.bp.pinCounts :=
  foldl_flushStep_fields _ w

theorem flushAll_inv {cfg : BPConfig} {w : World} (h : BPInv cfg w.bp) :
    BPInv cfg ((flushAll w).bp) := by
  obtain ⟨hwfc, hwfh, hdisj, hlenh, hlenc, hpin⟩ := h
  obtain ⟨h1, h2, h3⟩ := flushAll_fields w
  refine ⟨?_, ?_, ?_, ?_, ?_, ?_⟩
  · rw [h1]; exact hwfc
  · rw [h2]; exact hwfh
  · intro p hpc
    rw [h1] at hpc
    rw [h2]
    exact hdisj p hpc
  · rw [h2]; exact hlenh
  · rw [h1]; exact hlenc
  · intro e he
    rw [h3] at he
    exact hpin e he

theorem insert_new_page_inv {cfg : BPConfig} {bp : BPState} (pageId : Nat) (buf : Buf)
    (h : BPInv cfg bp)
    (hlen : pageId ∉ keysOf bp.historyList → bp.historyList.length < cfg.historyListSize)
    (hfresh : pageId ∉ keysOf bp.cache) :
    BPInv cfg { bp with historyList := mapSet bp.historyList pageId buf,
                        pinCounts := mapSet bp.pinCounts pageId 1,
                        dirtyList := mapSet bp.dirtyList pageId true } := by
  obtain ⟨hwfc, hwfh, hdisj, hlenh, hlenc, hpin⟩ := h
  refine ⟨hwfc, nodup_mapSet _ _ hwfh, ?_, ?_, hlenc, ?_⟩
  · intro p hpc hph
    rcases (mem_keysOf_mapSet _ _ _ _).1 hph with hq | hq
    · exact hdisj p hpc hq
    · rw [hq] at hpc; exact hfresh hpc
  · by_cases hmem : pageId ∈ keysOf bp.historyList
    · rw [length_mapSet_mem _ _ _ hmem]; exact hlenh
    · rw [length_mapSet_not_mem _ _ _ hmem]
      have := hlen hmem
      omega
  · intro e he
    rcases mem_mapSet he with he' | he'
    · exact hpin e he'
    · rw [he']; norm_num

theorem createPage_inv {cfg : BPConfig} {env : StorageEnv} {w : World}
    (h : BPInv cfg w.bp)
    (hfresh : ∀ i, env.allocatePage = .ok i → i ∉ keysOf w.bp.cache) :
    BPInv cfg ((createPage cfg env w).2).bp := by
  unfold createPage
  cases halloc : env.allocatePage with
  | error e => exact h
  | ok pageId =>
    have hfr : pageId ∉ keysOf w.bp.cache := hfresh pageId halloc
    by_cases hguard : cfg.historyListSize ≤ w.bp.historyList.length
    · rw [if_pos hguard]
      cases hev : evictFromHistory env w with
      | mk r w1 =>
        cases r with
        | error e =>
          show BPInv cfg w1.bp
          have h1 : (evictFromHistory env w).1 = .error e := by rw [hev]
          have h2 := evictFromHistory_error_bp h1
          rw [hev] at h2
          exact (show w1.bp = w.bp from h2) ▸ h
        | ok u =>
          obtain ⟨v, hv, hvpin, hc1, hh1, hp1, hd1⟩ := evictFromHistory_ok_shape hev
          have hw1 : BPInv cfg w1.bp := by
            have := @evict_hist_inv cfg env w h
            rw [hev] at this
            exact this
          show BPInv cfg { w1.bp with
              historyList := mapSet w1.bp.historyList pageId (List.replicate env.pageSize 0),
              pinCounts := mapSet w1.bp.pinCounts pageId 1,
              dirtyList := mapSet w1.bp.dirtyList pageId true }
          refine insert_new_page_inv pageId _ hw1 ?_ ?_
          · intro _
            have hlen1 : w1.bp.historyList.length + 1 = w.bp.historyList.length := by
              rw [hh1]; exact length_mapDelete_mem h.2.1 hv
            have := h.2.2.2.1
            omega
          · rw [hc1]; exact hfr
    · rw [if_neg hguard]
      show BPInv cfg { w.bp with
          historyList := mapSet w.bp.historyList pageId (List.replicate env.pageSize 0),
          pinCounts := mapSet w.bp.pinCounts pageId 1,
          dirtyList := mapSet w.bp.dirtyList pageId true }
      refine insert_new_page_inv pageId _ h ?_ ?_
      · intro _; omega
      · exact hfr

theorem getPageBody_inv {cfg : BPConfig} {env : StorageEnv} (p : Nat) {w : World}
    (h : BPInv cfg w.bp) : BPInv cfg ((getPageBody cfg env p w).2).bp := by
  obtain ⟨hwfc, hwfh, hdisj, hlenh, hlenc, hpin⟩ := h
  unfold getPageBody
  cases hc : mapGet w.bp.cache p with
  | some data =>
    have hmem : p ∈ keysOf w.bp.cache := (mapGet_isSome_iff _ _).1 (by simp [hc])
    refine ⟨?_, hwfh, ?_, hlenh, ?_, hpin⟩
    · exact nodup_mapSet _ _ (nodup_mapDelete _ hwfc)
    · intro q hqc
      rcases (mem_keysOf_mapSet _ _ _ _).1 hqc with hq | hq
      · exact hdisj q ((mem_keysOf_mapDelete _ _ _).1 hq).1
      · rw [hq]; exact hdisj p hmem
    · have hnot : p ∉ keysOf (mapDelete w.bp.cache p) := by
        rw [mem_keysOf_mapDelete]; simp
      rw [length_mapSet_not_mem _ _ _ hnot]
      have := length_mapDelete_mem hwfc hmem
      omega
  | none =>
    have hpc : p ∉ keysOf w.bp.cache := (mapGet_eq_none_iff _ _).1 hc
    by_cases hh : mapContains w.bp.historyList p = true
    · rw [if_pos hh]
      by_cases hguard : cfg.cacheSize ≤ w.bp.cache.length
      · rw [if_pos hguard]
        cases hev : evictFromCache env w with
        | mk r w1 =>
          cases r with
          | error e =>
            show BPInv cfg w1.bp
            have h1 : (evictFromCache env w).1 = .error e := by rw [hev]
            have h2 := evictFromCache_error_bp h1
            rw [hev] at h2
            exact (show w1.bp = w.bp from h2) ▸ ⟨hwfc, hwfh, hdisj, hlenh, hlenc, hpin⟩
          | ok u =>
            obtain ⟨v, hv, hvpin, hh1, hc1, hp1, hd1⟩ := evictFromCache_ok_shape hev
            have hw1 : BPInv cfg w1.bp := by
              have := @evict_cache_inv cfg env w
                ⟨hwfc, hwfh, hdisj, hlenh, hlenc, hpin⟩
              rw [hev] at this
              exact this
            obtain ⟨g1, g2, g3, g4, g5, g6⟩ := hw1
            show BPInv cfg { w1.bp with
                cache := mapSet w1.bp.cache p ((mapGet w1.bp.historyList p).getD []),
                historyList := mapDelete w1.bp.historyList p }
            have hpc1 : p ∉ keysOf w1.bp.cache := by
              rw [hc1]
              intro hx
              exact hpc ((mem_keysOf_mapDelete _ _ _).1 hx).1
            refine ⟨nodup_mapSet _ _ g1, nodup_mapDelete _ g2, ?_, ?_, ?_, g6⟩
            · intro q hqc hqh
              rcases (mem_keysOf_mapSet _ _ _ _).1 hqc with hq | hq
              · exact g3 q hq ((mem_keysOf_mapDelete _ _ _).1 hqh).1
              · rw [hq] at hqh
                exact ((mem_keysOf_mapDelete _ _ _).1 hqh).2 rfl
            · exact le_trans (length_mapDelete_le _ _) g4
            · rw [length_mapSet_not_mem _ _ _ hpc1]
              have hlen1 : w1.bp.cache.length + 1 = w.bp.cache.length := by
                rw [hc1]; exact length_mapDelete_mem hwfc hv
              omega
      · rw [if_neg hguard]
        show BPInv cfg { w.bp with
            cache := mapSet w.bp.cache p ((mapGet w.bp.historyList p).getD []),
            historyList := mapDelete w.bp.historyList p }
        refine ⟨nodup_mapSet _ _ hwfc, nodup_mapDelete _ hwfh, ?_,
          le_trans (length_mapDelete_le _ _) hlenh, ?_, hpin⟩
        · intro q hqc hqh
          rcases (mem_keysOf_mapSet _ _ _ _).1 hqc with hq | hq
          · exact hdisj q hq ((mem_keysOf_mapDelete _ _ _).1 hqh).1
          · rw [hq] at hqh
            exact ((mem_keysOf_mapDelete _ _ _).1 hqh).2 rfl
        · rw [length_mapSet_not_mem _ _ _ hpc]
          omega
    · rw [if_neg hh]
      have hph : p ∉ keysOf w.bp.historyList := by
        rw [← mapContains_eq_false_iff]
        simpa using hh
      by_cases hguard : cfg.historyListSize ≤ w.bp.historyList.length
      · rw [if_pos hguard]
        cases hev : evictFromHistory env w with
        | mk r w1 =>
          cases r with
          | error e =>
            show BPInv cfg w1.bp
            have h1 : (evictFromHistory env w).1 = .error e := by rw [hev]
            have h2 := evictFromHistory_error_bp h1
            rw [hev] at h2
            exact (show w1.bp = w.bp from h2) ▸ ⟨hwfc, hwfh, hdisj, hlenh, hlenc, hpin⟩
          | ok u =>
            obtain ⟨v, hv, hvpin, hc1, hh1, hp1, hd1⟩ := evictFromHistory_ok_shape hev
            have hw1 : BPInv cfg w1.bp := by
              have := @evict_hist_inv cfg env w
                ⟨hwfc, hwfh, hdisj, hlenh, hlenc, hpin⟩
              rw [hev] at this
              exact this
            obtain ⟨g1, g2, g3, g4, g5, g6⟩ := hw1
            cases hread : env.readPage p with
            | error e =>
              show BPInv cfg w1.bp
              exact ⟨g1, g2, g3, g4, g5, g6⟩
            | ok buf =>
              show BPInv cfg { w1.bp with historyList := mapSet w1.bp.historyList p buf }
              have hph1 : p ∉ keysOf w1.bp.historyList := by
                rw [hh1]
                intro hx
                exact hph ((mem_keysOf_mapDelete _ _ _).1 hx).1
              refine ⟨g1, nodup_mapSet _ _ g2, ?_, ?_, g5, g6⟩
              · intro q hqc hqh
                rcases (mem_keysOf_mapSet _ _ _ _).1 hqh with hq | hq
                · exact g3 q hqc hq
                · rw [hq] at hqc
                  rw [hc1] at hqc
                  exact hpc hqc
              · rw [length_mapSet_not_mem _ _ _ hph1]
                have hlen1 : w1.bp.historyList.length + 1 = w.bp.historyList.length := by
                  rw [hh1]; exact length_mapDelete_mem hwfh hv
                omega
      · rw [if_neg hguard]
        cases hread : env.readPage p with
        | error e => exact ⟨hwfc, hwfh, hdisj, hlenh, hlenc, hpin⟩
        | ok buf =>
          show BPInv cfg { w.bp with historyList := mapSet w.bp.historyList p buf }
          refine ⟨hwfc, nodup_mapSet _ _ hwfh, ?_, ?_, hlenc, hpin⟩
          · intro q hqc hqh
            rcases (mem_keysOf_mapSet _ _ _ _).1 hqh with hq | hq
            · exact hdisj q hqc hq
            · rw [hq] at hqc
              exact hpc hqc
          · rw [length_mapSet_not_mem _ _ _ hph]
            omega

theorem getPage_inv {cfg : BPConfig} {env : StorageEnv} (p : Nat) {w : World}
    (h : BPInv cfg w.bp) : BPInv cfg ((getPage cfg env p w).2).bp := by
  unfold getPage
  exact getPageBody_inv p (bumpPin_inv p h)

/-! ## Result and state lemmas for `getPage`, `createPage`, `unpinPage` -/

/-- A page is resident when it lies in the cache or the history list. -/
def residentIn (bp : BPState) (p : Nat) : Bool :=
  mapContains bp.cache p || mapContains bp.historyList p

theorem getPageBody_pin (cfg : BPConfig) (env : StorageEnv) (p : Nat) (w : World) :
    mapGet ((getPageBody cfg env p w).2).bp.pinCounts p = mapGet w.bp.pinCounts p := by
  unfold getPageBody
  cases hc : mapGet w.bp.cache p with
  | some data => rfl
  | none =>
    have hpc : p ∉ keysOf w.bp.cache := (mapGet_eq_none_iff _ _).1 hc
    by_cases hh : mapContains w.bp.historyList p = true
    · rw [if_pos hh]
      by_cases hguard : cfg.cacheSize ≤ w.bp.cache.length
      · rw [if_pos hguard]
        cases hev : evictFromCache env w with
        | mk r w1 =>
          cases r with
          | error e =>
            show mapGet w1.bp.pinCounts p = mapGet w.bp.pinCounts p
            have h1 : (evictFromCache env w).1 = .error e := by rw [hev]
            have h2 := evictFromCache_error_bp h1
            rw [hev] at h2
            rw [show w1.bp = w.bp from h2]
          | ok u =>
            obtain ⟨v, hv, hvpin, hh1, hc1, hp1, hd1⟩ := evictFromCache_ok_shape hev
            show mapGet w1.bp.pinCounts p = mapGet w.bp.pinCounts p
            have hvp : p ≠ v := fun hx => hpc (hx ▸ hv)
            rw [hp1]
            exact mapGet_mapDelete_ne _ _ _ hvp
      · rw [if_neg hguard]
    · rw [if_neg hh]
      have hph : p ∉ keysOf w.bp.historyList := by
        rw [← mapContains_eq_false_iff]
        simpa using hh
      by_cases hguard : cfg.historyListSize ≤ w.bp.historyList.length
      · rw [if_pos hguard]
        cases hev : evictFromHistory env w with
        | mk r w1 =>
          cases r with
          | error e =>
            show mapGet w1.bp.pinCounts p = mapGet w.bp.pinCounts p
            have h1 : (evictFromHistory env w).1 = .error e := by rw [hev]
            have h2 := evictFromHistory_error_bp h1
            rw [hev] at h2
            rw [show w1.bp = w.bp from h2]
          | ok u =>
            obtain ⟨v, hv, hvpin, hc1, hh1, hp1, hd1⟩ := evictFromHistory_ok_shape hev
            have hvp : p ≠ v := fun hx => hph (hx ▸ hv)
            have hpw1 : mapGet w1.bp.pinCounts p = mapGet w.bp.pinCounts p := by
              rw [hp1]
              exact mapGet_mapDelete_ne _ _ _ hvp
            cases hread : env.readPage p with
            | error e => exact hpw1
            | ok buf => exact hpw1
      · rw [if_neg hguard]
        cases hread : env.readPage p with
        | error e => rfl
        | ok buf => rfl

theorem getPage_pin (cfg : BPConfig) (env : StorageEnv) (p : Nat) (w : World) :
    mapGet ((getPage cfg env p w).2).bp.pinCounts p = some (pinOf w.bp p + 1) := by
  unfold getPage
  rw [getPageBody_pin]
  exact mapGet_mapSet_self _ _ _

theorem getPageBody_ok_residentBuf {cfg : BPConfig} {env : StorageEnv} {p : Nat}
    {w : World} {b : Buf} {w' : World}
    (h : getPageBody cfg env p w = (.ok b, w')) :
    residentBuf w'.bp p = some b := by
  unfold getPageBody at h
  cases hc : mapGet w.bp.cache p with
  | some data =>
    rw [hc] at h
    have hb : b = data := (Except.ok.inj (congrArg Prod.fst h)).symm
    have hw : w' = { w with bp := { w.bp with
        cache := mapSet (mapDelete w.bp.cache p) p data } } := (congrArg Prod.snd h).symm
    rw [hw, hb]
    unfold residentBuf
    simp only
    rw [mapGet_mapSet_self]
  | none =>
    rw [hc] at h
    have hpc : p ∉ keysOf w.bp.cache := (mapGet_eq_none_iff _ _).1 hc
    by_cases hh : mapContains w.bp.historyList p = true
    · rw [if_pos hh] at h
      cases hev : (if cfg.cacheSize ≤ w.bp.cache.length then evictFromCache env w else (.ok (), w)) with
      | mk r w1 =>
        rw [hev] at h
        cases r with
        | error e => exact absurd (congrArg Prod.fst h) (by simp)
        | ok u =>
          have hb : b = (mapGet w1.bp.historyList p).getD [] :=
            (Except.ok.inj (congrArg Prod.fst h)).symm
          have hw : w' = { w1 with bp := { w1.bp with
              cache := mapSet w1.bp.cache p ((mapGet w1.bp.historyList p).getD []),
              historyList := mapDelete w1.bp.historyList p } } := (congrArg Prod.snd h).symm
          rw [hw, hb]
          unfold residentBuf
          simp only
          rw [mapGet_mapSet_self]
    · rw [if_neg hh] at h
      cases hev : (if cfg.historyListSize ≤ w.bp.historyList.length then evictFromHistory env w else (.ok (), w)) with
      | mk r w1 =>
        rw [hev] at h
        cases r with
        | error e => exact absurd (congrArg Prod.fst h) (by simp)
        | ok u =>
          cases hread : env.readPage p with
          | error e =>
            rw [hread] at h
            exact absurd (congrArg Prod.fst h) (by simp)
          | ok buf =>
            rw [hread] at h
            have hb : b = (mapGet (mapSet w1.bp.historyList p buf) p).getD [] :=
              (Except.ok.inj (congrArg Prod.fst h)).symm
            have hw : w' = { w1 with bp := { w1.bp with
                historyList := mapSet w1.bp.historyList p buf } } := (congrArg Prod.snd h).symm
            have hcache1 : mapGet w1.bp.cache p = none := by
              by_cases hguard : cfg.historyListSize ≤ w.bp.historyList.length
              · rw [if_pos hguard] at hev
                cases hr1 : (evictFromHistory env w).1 with
                | error e' =>
                  have := evictFromHistory_error_bp hr1
                  rw [hev] at hr1
                  simp at hr1
                | ok u' =>
                  have hok : evictFromHistory env w = (.ok u', (evictFromHistory env w).2) := by
                    rw [← hr1]
                  obtain ⟨v, hv, hvpin, hc1, hh1, hp1, hd1⟩ := evictFromHistory_ok_shape hok
                  have : (evictFromHistory env w).2 = w1 := by rw [hev]
                  rw [this] at hc1
                  rw [hc1]
                  exact hc
              · rw [if_neg hguard] at hev
                have : w1 = w := (Prod.mk.inj hev).2.symm
                rw [this]
                exact hc
            rw [hw, hb]
            unfold residentBuf
            simp only
            rw [hcache1, mapGet_mapSet_self]
            rfl

theorem getPage_ok_residentBuf {cfg : BPConfig} {env : StorageEnv} {p : Nat}
    {w : World} {b : Buf} {w' : World}
    (h : getPage cfg env p w = (.ok b, w')) :
    residentBuf w'.bp p = some b := by
  unfold getPage at h
  exact getPageBody_ok_residentBuf h

theorem getPageBody_resident_val {cfg : BPConfig} {env : StorageEnv} {p : Nat}
    {w : World} {b : Buf} {r : Buf} {w' : World}
    (hres : residentBuf w.bp p = some b)
    (h : getPageBody cfg env p w = (.ok r, w')) : r = b := by
  unfold getPageBody at h
  unfold residentBuf at hres
  cases hc : mapGet w.bp.cache p with
  | some data =>
    rw [hc] at h hres
    have hb : data = b := Option.some.inj hres
    have hr : r = data := (Except.ok.inj (congrArg Prod.fst h)).symm
    rw [hr, hb]
  | none =>
    rw [hc] at h hres
    have hres' : mapGet w.bp.historyList p = some b := hres
    have hh : mapContains w.bp.historyList p = true := by
      unfold mapContains
      rw [hres']
      rfl
    rw [if_pos hh] at h
    cases hev : (if cfg.cacheSize ≤ w.bp.cache.length then evictFromCache env w else (.ok (), w)) with
    | mk r0 w1 =>
      rw [hev] at h
      cases r0 with
      | error e => exact absurd (congrArg Prod.fst h) (by simp)
      | ok u =>
        have hr : r = (mapGet w1.bp.historyList p).getD [] :=
          (Except.ok.inj (congrArg Prod.fst h)).symm
        have hh1 : w1.bp.historyList = w.bp.historyList := by
          by_cases hguard : cfg.cacheSize ≤ w.bp.cache.length
          · rw [if_pos hguard] at hev
            obtain ⟨v, hv, hvpin, hh1, hc1, hp1, hd1⟩ := evictFromCache_ok_shape hev
            exact hh1
          · rw [if_neg hguard] at hev
            rw [(Prod.mk.inj hev).2.symm]
        rw [hr, hh1, hres']
        rfl

theorem getPage_resident_val {cfg : BPConfig} {env : StorageEnv} {p : Nat}
    {w : World} {b : Buf} {r : Buf} {w' : World}
    (hres : residentBuf w.bp p = some b)
    (h : getPage cfg env p w = (.ok r, w')) : r = b := by
  unfold getPage at h
  exact @getPageBody_resident_val cfg env p { w with bp := bumpPin w.bp p } b r w' (by exact hres) h

theorem getPageBody_ok_len {cfg : BPConfig} {env : StorageEnv} {p ps : Nat}
    {w : World} {r : Buf} {w' : World}
    (hbc : ∀ e ∈ w.bp.cache, (e.2 : Buf).length = ps)
    (hbh : ∀ e ∈ w.bp.historyList, (e.2 : Buf).length = ps)
    (henv : ∀ q buf, env.readPage q = .ok buf → buf.length = ps)
    (h : getPageBody cfg env p w = (.ok r, w')) : r.length = ps := by
  unfold getPageBody at h
  cases hc : mapGet w.bp.cache p with
  | some data =>
    rw [hc] at h
    have hr : r = data := (Except.ok.inj (congrArg Prod.fst h)).symm
    rw [hr]
    exact hbc (p, data) (mapGet_some_mem hc)
  | none =>
    rw [hc] at h
    by_cases hh : mapContains w.bp.historyList p = true
    · rw [if_pos hh] at h
      obtain ⟨data, hdata⟩ : ∃ data, mapGet w.bp.historyList p = some data := by
        unfold mapContains at hh
        cases hg : mapGet w.bp.historyList p with
        | none => rw [hg] at hh; simp at hh
        | some d => exact ⟨d, rfl⟩
      cases hev : (if cfg.cacheSize ≤ w.bp.cache.length then evictFromCache env w else (.ok (), w)) with
      | mk r0 w1 =>
        rw [hev] at h
        cases r0 with
        | error e => exact absurd (congrArg Prod.fst h) (by simp)
        | ok u =>
          have hr : r = (mapGet w1.bp.historyList p).getD [] :=
            (Except.ok.inj (congrArg Prod.fst h)).symm
          have hh1 : w1.bp.historyList = w.bp.historyList := by
            by_cases hguard : cfg.cacheSize ≤ w.bp.cache.length
            · rw [if_pos hguard] at hev
              obtain ⟨v, hv, hvpin, hh1, hc1, hp1, hd1⟩ := evictFromCache_ok_shape hev
              exact hh1
            · rw [if_neg hguard] at hev
              rw [(Prod.mk.inj hev).2.symm]
          rw [hr, hh1, hdata]
          exact hbh (p, data) (mapGet_some_mem hdata)
    · rw [if_neg hh] at h
      cases hev : (if cfg.historyListSize ≤ w.bp.historyList.length then evictFromHistory env w else (.ok (), w)) with
      | mk r0 w1 =>
        rw [hev] at h
        cases r0 with
        | error e => exact absurd (congrArg Prod.fst h) (by simp)
        | ok u =>
          cases hread : env.readPage p with
          | error e =>
            rw [hread] at h
            exact absurd (congrArg Prod.fst h) (by simp)
          | ok buf =>
            rw [hread] at h
            have hr : r = (mapGet (mapSet w1.bp.historyList p buf) p).getD [] :=
              (Except.ok.inj (congrArg Prod.fst h)).symm
            rw [hr, mapGet_mapSet_self]
            exact henv p buf hread

theorem getPage_ok_len {cfg : BPConfig} {env : StorageEnv} {p ps : Nat}
    {w : World} {r : Buf} {w' : World}
    (hbc : ∀ e ∈ w.bp.cache, (e.2 : Buf).length = ps)
    (hbh : ∀ e ∈ w.bp.historyList, (e.2 : Buf).length = ps)
    (henv : ∀ q buf, env.readPage q = .ok buf → buf.length = ps)
    (h : getPage cfg env p w = (.ok r, w')) : r.length = ps := by
  unfold getPage at h
  exact @getPageBody_ok_len cfg env p ps { w with bp := bumpPin w.bp p } r w'
    (by exact hbc) (by exact hbh) henv h

theorem unpinPage_fields (pageId : Nat) (isDirty : Bool) (w : World) :
    (unpinPage pageId isDirty w).bp.cache = w.bp.cache ∧
    (unpinPage pageId isDirty w).bp.historyList = w.bp.historyList := by
  by_cases hc : 0 < pinOf w.bp pageId <;> by_cases hd : isDirty = true <;>
    simp [unpinPage, hc, hd]

theorem mutatePage_residentBuf (bp : BPState) (p : Nat) (b : Buf) :
    residentBuf (mutatePage bp p b) p = some b := by
  unfold mutatePage residentBuf
  by_cases hc : mapContains bp.cache p = true
  · rw [if_pos hc]
    simp only
    rw [mapGet_mapSet_self]
  · rw [if_neg hc]
    simp only
    have hnone : mapGet bp.cache p = none := by
      unfold mapContains at hc
      cases hg : mapGet bp.cache p with
      | none => rfl
      | some d => rw [hg] at hc; simp at hc
    rw [hnone, mapGet_mapSet_self]

theorem getD_set_self (l : List Nat) (i : Nat) (a d : Nat) (h : i < l.length) :
    (l.set i a).getD i d = a := by
  induction l generalizing i with
  | nil => simp at h
  | cons x xs ih =>
    cases i with
    | zero => simp
    | succ n =>
      simp only [List.set_cons_succ, List.getD_cons_succ]
      exact ih n (by simpa using h)

/-- The state change a completed history eviction performs: some unpinned
victim is dropped from the history list and the pin-count map (and possibly
from the dirty map), all else untouched. -/
def evictedFromHistory (bp0 bp1 : BPState) : Prop :=
  ∃ v, v ∈ keysOf bp0.historyList ∧ ¬ (0 < pinOf bp0 v) ∧
    bp1.cache = bp0.cache ∧
    bp1.historyList = mapDelete bp0.historyList v ∧
    bp1.pinCounts = mapDelete bp0.pinCounts v ∧
    (bp1.dirtyList = mapDelete bp0.dirtyList v ∨ bp1.dirtyList = bp0.dirtyList)

theorem createPage_error_bp {cfg : BPConfig} {env : StorageEnv} {w : World} {e : Err}
    (h : (createPage cfg env w).1 = .error e) :
    (createPage cfg env w).2.bp = w.bp := by
  unfold createPage at h ⊢
  cases halloc : env.allocatePage with
  | error e0 => rfl
  | ok pageId =>
    rw [halloc] at h
    by_cases hguard : cfg.historyListSize ≤ w.bp.historyList.length
    · rw [if_pos hguard] at h ⊢
      cases hev : evictFromHistory env w with
      | mk r w1 =>
        rw [hev] at h
        cases r with
        | error e1 =>
          show w1.bp = w.bp
          have h1 : (evictFromHistory env w).1 = .error e1 := by rw [hev]
          have h2 := evictFromHistory_error_bp h1
          rw [hev] at h2
          exact h2
        | ok u => simp at h
    · rw [if_neg hguard] at h ⊢
      simp at h

theorem getPageBody_error_bp {cfg : BPConfig} {env : StorageEnv} {p : Nat}
    {w : World} {e : Err}
    (h : (getPageBody cfg env p w).1 = .error e) :
    (getPageBody cfg env p w).2.bp = w.bp ∨
      evictedFromHistory w.bp ((getPageBody cfg env p w).2).bp := by
  unfold getPageBody at h ⊢
  cases hc : mapGet w.bp.cache p with
  | some data => rw [hc] at h; simp at h
  | none =>
    rw [hc] at h
    by_cases hh : mapContains w.bp.historyList p = true
    · rw [if_pos hh] at h ⊢
      by_cases hguard : cfg.cacheSize ≤ w.bp.cache.length
      · rw [if_pos hguard] at h ⊢
        cases hev : evictFromCache env w with
        | mk r w1 =>
          rw [hev] at h
          cases r with
          | error e1 =>
            left
            show w1.bp = w.bp
            have h1 : (evictFromCache env w).1 = .error e1 := by rw [hev]
            have h2 := evictFromCache_error_bp h1
            rw [hev] at h2
            exact h2
          | ok u => simp at h
      · rw [if_neg hguard] at h ⊢
        simp at h
    · rw [if_neg hh] at h ⊢
      by_cases hguard : cfg.historyListSize ≤ w.bp.historyList.length
      · rw [if_pos hguard] at h ⊢
        cases hev : evictFromHistory env w with
        | mk r w1 =>
          rw [hev] at h
          cases r with
          | error e1 =>
            left
            show w1.bp = w.bp
            have h1 : (evictFromHistory env w).1 = .error e1 := by rw [hev]
            have h2 := evictFromHistory_error_bp h1
            rw [hev] at h2
            exact h2
          | ok u =>
            cases hread : env.readPage p with
            | error e2 =>
              right
              show evictedFromHistory w.bp w1.bp
              obtain ⟨v, hv, hvpin, hc1, hh1, hp1, hd1⟩ := evictFromHistory_ok_shape hev
              exact ⟨v, hv, hvpin, hc1, hh1, hp1, hd1⟩
            | ok buf =>
              rw [hread] at h
              simp at h
      · rw [if_neg hguard] at h ⊢
        cases hread : env.readPage p with
        | error e2 => left; rfl
        | ok buf =>
          rw [hread] at h
          simp at h

theorem getPage_error_bp {cfg : BPConfig} {env : StorageEnv} {p : Nat}
    {w : World} {e : Err}
    (h : (getPage cfg env p w).1 = .error e) :
    (getPage cfg env p w).2.bp = bumpPin w.bp p ∨
      evictedFromHistory (bumpPin w.bp p) ((getPage cfg env p w).2).bp := by
  unfold getPage at h ⊢
  exact @getPageBody_error_bp cfg env p { w with bp := bumpPin w.bp p } e h

/-! ## Storage Manager arithmetic lemmas -/

theorem getD_append_right (l l' : List Nat) (i d : Nat) :
    (l ++ l').getD (l.length + i) d = l'.getD i d := by
  induction l with
  | nil => simp
  | cons x xs ih =>
    simp only [List.cons_append, List.length_cons]
    rw [show xs.length + 1 + i = (xs.length + i) + 1 by omega]
    simpa [List.getD_cons_succ] using ih

theorem getD_replicate_lt (n i d a : Nat) (h : i < n) :
    (List.replicate n a).getD i d = a := by
  induction n generalizing i with
  | zero => omega
  | succ m ih =>
    cases i with
    | zero => simp [List.replicate]
    | succ j =>
      simp only [List.replicate, List.getD_cons_succ]
      exact ih j (by omega)

theorem fileWriteAt_overwrite (f t data : List Nat) (h : t.length = data.length) :
    fileWriteAt (f ++ t) f.length data = f ++ data := by
  unfold fileWriteAt
  rw [List.take_left]
  have h1 : f.length - (f ++ t).length = 0 := by simp
  have h2 : (f ++ t).drop (f.length + data.length) = [] := by
    apply List.drop_eq_nil_of_le
    simp [← h]
  rw [h1, h2]
  simp

theorem fileReadAt_zeros (f : List Nat) (ps : Nat) :
    fileReadAt (f ++ List.replicate ps 0) f.length ps = List.replicate ps 0 := by
  unfold fileReadAt
  rw [List.eq_replicate_iff]
  constructor
  · simp
  · intro b hb
    rw [List.mem_map] at hb
    obtain ⟨i, hi, hval⟩ := hb
    rw [List.mem_range] at hi
    rw [← hval, getD_append_right, getD_replicate_lt _ _ _ _ hi]

theorem residentBuf_some_residentIn {bp : BPState} {p : Nat} {b : Buf}
    (h : residentBuf bp p = some b) : residentIn bp p = true := by
  unfold residentBuf at h
  unfold residentIn mapContains
  cases hc : mapGet bp.cache p with
  | some d => simp [hc]
  | none =>
    rw [hc] at h
    have h' : mapGet bp.historyList p = some b := h
    simp [hc, h']

/-! ## The claims -/

/-- C1: the claim states that a failed task never prevents a subsequently
enqueued task from executing and resolving to its own result.  The operative
promise-chained `IOQueue` (`src/internal/IOQueue.ts`) violates this: it
chains `lastOperation.then(() => operation())` with no rejection handler, so
when two tasks are enqueued back-to-back and the first rejects, the second
task's operation is never invoked and its future rejects with the *first*
task's error.  This theorem evaluates the model at that failing input: the
first component of each result records whether the operation ran.  (The
bounded-worker rewrite in the repository wraps each task in
`operation().then(resolve).catch(reject)` and does isolate failures, matching
the spec's stated contract.) -/
theorem c1_chained_queue_failure_poisons_successor :
    chainedRun [(.error (.ioError "disk failure") : Except Err Nat), .ok 2] =
      [(true, .error (.ioError "disk failure")), (false, .error (.ioError "disk failure"))] := by
  decide

/-- C2: the claim (and §9 of the spec, which mandates awaited write-back)
states that `flushAll` clears a page's dirty flag only after its write has
completed successfully, and that a failed write leaves the flag set.  The
source issues `this.manager.writePage(pageId, buffer)` without `await` and
sets the flag to `false` immediately, so the flag is cleared while the write
is merely issued; `flushAll`'s state transition does not depend on the
write's outcome at all (the function consults no Storage Manager result), so
a failing write still leaves `dirty = false`.  Evaluated here on a pool whose
only resident page 1 is dirty: the returned state records the issued write
in the trace and already has `dirty[1] = false`. -/
theorem c2_flushAll_clears_dirty_without_await :
    flushAll { bp := { cache := [], historyList := [(1, [7, 7])],
                       dirtyList := [(1, true)], pinCounts := [(1, 0)] },
               writes := [] } =
      { bp := { cache := [], historyList := [(1, [7, 7])],
                dirtyList := [(1, false)], pinCounts := [(1, 0)] },
        writes := [(1, [7, 7])] } := by
  decide

/-- C10: `unpinPage(p, isDirty = true)` sets `dirty[p] = true` unconditionally
(`if (isDirty) this.dirtyList.set(pageId, true)`), even when `p` is resident
in neither list and when its pin count is 0, and it never touches the
residency lists — so a dirty entry can exist for a page in neither list. -/
theorem c10_unpinPage_sets_dirty_unconditionally (w : World) (p : Nat) :
    mapGet ((unpinPage p true w).bp).dirtyList p = some true ∧
    (unpinPage p true w).bp.historyList = w.bp.historyList ∧
    (unpinPage p true w).bp.cache = w.bp.cache := by
  by_cases hc : 0 < pinOf w.bp p <;>
    simp [unpinPage, hc, mapGet_mapSet_self]

/-- C7: on a data file of length exactly `4 + k * pageSize` (with `pageSize` a
positive multiple of 1024), `allocatePage` returns `k` and appends `pageSize`
zero bytes at the old end of the file; the returned id addresses exactly the
appended region under the `4 + pageId * pageSize` offset rule (`readPage k`
on the new file reads the zero page, `writePage k` overwrites exactly the
appended bytes), and the next allocation returns `k + 1`, so successive
allocations assign dense increasing ids. -/
theorem c7_allocatePage_dense_ids (ps k : Nat) (f data : List Nat)
    (hps : 1024 ∣ ps) (hpos : 0 < ps)
    (hlen : f.length = 4 + k * ps) (hdata : data.length = ps) :
    (SMallocatePage ps f).1 = k ∧
    (SMallocatePage ps f).2 = f ++ List.replicate ps 0 ∧
    ((SMallocatePage ps f).2).length = 4 + (k + 1) * ps ∧
    (SMallocatePage ps ((SMallocatePage ps f).2)).1 = k + 1 ∧
    4 + (SMallocatePage ps f).1 * ps = f.length ∧
    SMreadPage ps ((SMallocatePage ps f).2) k = List.replicate ps 0 ∧
    SMwritePage ps ((SMallocatePage ps f).2) k data = .ok (f ++ data) := by
  have hge : 1024 ≤ ps := Nat.le_of_dvd hpos hps
  have h4 : 4 / ps = 0 := Nat.div_eq_of_lt (by omega)
  have halloc1 : (SMallocatePage ps f).1 = k := by
    unfold SMallocatePage
    simp only
    rw [hlen, Nat.add_mul_div_right _ _ hpos, h4]
    omega
  have halloc2 : (SMallocatePage ps f).2 = f ++ List.replicate ps 0 := by
    unfold SMallocatePage
    simp only
    exact fileWriteAt_append f _
  have hpos4 : k * ps + 4 = f.length := by rw [hlen]; ring
  have hlen2 : ((SMallocatePage ps f).2).length = 4 + (k + 1) * ps := by
    rw [halloc2, List.length_append, List.length_replicate, hlen]
    ring
  have halloc3 : (SMallocatePage ps ((SMallocatePage ps f).2)).1 = k + 1 := by
    rw [halloc2]
    unfold SMallocatePage
    simp only
    rw [List.length_append, List.length_replicate, hlen,
      show 4 + k * ps + ps = 4 + (k + 1) * ps from by ring,
      Nat.add_mul_div_right _ _ hpos, h4]
    omega
  have hoffset : 4 + (SMallocatePage ps f).1 * ps = f.length := by
    rw [halloc1, hlen]
  have hread : SMreadPage ps ((SMallocatePage ps f).2) k = List.replicate ps 0 := by
    rw [halloc2]
    unfold SMreadPage
    rw [hpos4]
    exact fileReadAt_zeros f ps
  have hwrite : SMwritePage ps ((SMallocatePage ps f).2) k data = .ok (f ++ data) := by
    rw [halloc2]
    unfold SMwritePage
    rw [if_neg (fun hh => hh hdata), hpos4,
      fileWriteAt_overwrite f _ data (by simp [hdata])]
  exact ⟨halloc1, halloc2, hlen2, halloc3, hoffset, hread, hwrite⟩

/-- The smallest legal data file for C7's witness: a 4-byte header and no
pages, with `pageSize = 1024`. -/
def c7File : List Nat := List.replicate 4 0

/-- A page-sized buffer for C7's witness. -/
def c7Data : List Nat := List.replicate 1024 7

set_option maxRecDepth 4000 in
/-- Witness for C7 at `pageSize = 1024`, `k = 0`. -/
theorem c7_allocatePage_dense_ids_witness :
    (SMallocatePage 1024 c7File).1 = 0 ∧
    (SMallocatePage 1024 c7File).2 = c7File ++ List.replicate 1024 0 ∧
    ((SMallocatePage 1024 c7File).2).length = 4 + (0 + 1) * 1024 ∧
    (SMallocatePage 1024 ((SMallocatePage 1024 c7File).2)).1 = 0 + 1 ∧
    4 + (SMallocatePage 1024 c7File).1 * 1024 = c7File.length ∧
    SMreadPage 1024 ((SMallocatePage 1024 c7File).2) 0 = List.replicate 1024 0 ∧
    SMwritePage 1024 ((SMallocatePage 1024 c7File).2) 0 c7Data = .ok (c7File ++ c7Data) :=
  c7_allocatePage_dense_ids 1024 0 c7File c7Data (by decide) (by decide)
    (by simp [c7File]) (by simp [c7Data])

/-- C5: `getPage` performs its pin-count increment before any lookup or
eviction, so a requested page that is resident is never selected as a victim
by an eviction running inside the same call: when `getPage(p)` succeeds, `p`
is still resident afterwards, and its recorded pin count is the old value
plus one. -/
theorem c5_getPage_keeps_requested_page_resident (cfg : BPConfig) (env : StorageEnv)
    (p : Nat) (w : World)
    (hres : residentIn w.bp p = true)
    (hok : exceptIsOk (getPage cfg env p w).1 = true) :
    residentIn ((getPage cfg env p w).2).bp p = true ∧
    mapGet ((getPage cfg env p w).2).bp.pinCounts p = some (pinOf w.bp p + 1) := by
  constructor
  · cases hg : getPage cfg env p w with
    | mk r w' =>
      cases r with
      | error e => rw [hg] at hok; simp [exceptIsOk] at hok
      | ok b =>
        have := getPage_ok_residentBuf hg
        exact residentBuf_some_residentIn this
  · exact getPage_pin cfg env p w

/-- A trivial storage environment for concrete witnesses. -/
def okEnv : StorageEnv :=
  { pageSize := 4, allocatePage := .ok 5,
    readPage := fun _ => .ok (List.replicate 4 0), writePage := fun _ _ => .ok () }

/-- A world whose cache holds page 2, for C5's witness. -/
def c5World : World :=
  { bp := { cache := [(2, [5, 5, 5, 5])], historyList := [], dirtyList := [], pinCounts := [] },
    writes := [] }

/-- Witness for C5: a cache hit on page 2. -/
theorem c5_getPage_keeps_requested_page_resident_witness :
    residentIn ((getPage (BPConfig.ofSize 4) okEnv 2 c5World).2).bp 2 = true ∧
    mapGet ((getPage (BPConfig.ofSize 4) okEnv 2 c5World).2).bp.pinCounts 2 =
      some (pinOf c5World.bp 2 + 1) :=
  c5_getPage_keeps_requested_page_resident (BPConfig.ofSize 4) okEnv 2 c5World
    (by decide) (by decide)

/-- C4: `evictFromHistory` / `evictFromCache` scan their list's keys in
insertion order (oldest first) and select the first entry whose pin count is
0 (`List.find?` over `keysOf`, which is the JS `Map` iteration order); the
victim is written back through the Storage Manager if and only if its dirty
flag is `true` (the write appears in the trace exactly in that case), with
the dirty flag cleared on success and the error propagated (state unchanged)
on failure; the victim and its pin-count record are then removed.  If and
only if every scanned entry has a positive pin count, the operation fails
with the `Buffer Pool Overflow` error and removes nothing (the state is
returned untouched). -/
theorem c4_eviction_scan_spec (env : StorageEnv) (w : World)
    (hpins : ∀ k, 0 ≤ pinOf w.bp k) :
    (((keysOf w.bp.historyList).find? (unpinnedIn w.bp) = none ↔
        ∀ k ∈ keysOf w.bp.historyList, pinOf w.bp k ≠ 0) ∧
      ((keysOf w.bp.historyList).find? (unpinnedIn w.bp) = none →
        evictFromHistory env w = (.error (.bufferPoolOverflow historyOverflowMsg), w)) ∧
      (∀ v, (keysOf w.bp.historyList).find? (unpinnedIn w.bp) = some v →
        pinOf w.bp v = 0 ∧
        (dirtyOf w.bp v = true →
          (env.writePage v ((mapGet w.bp.historyList v).getD []) = .ok () →
            evictFromHistory env w = (.ok (),
              { bp := { cache := w.bp.cache,
                        historyList := mapDelete w.bp.historyList v,
                        dirtyList := mapDelete w.bp.dirtyList v,
                        pinCounts := mapDelete w.bp.pinCounts v },
                writes := w.writes ++ [(v, (mapGet w.bp.historyList v).getD [])] })) ∧
          (∀ e, env.writePage v ((mapGet w.bp.historyList v).getD []) = .error e →
            evictFromHistory env w = (.error e,
              { w with writes := w.writes ++ [(v, (mapGet w.bp.historyList v).getD [])] }))) ∧
        (dirtyOf w.bp v = false →
          evictFromHistory env w = (.ok (),
            { w with bp := { w.bp with
                historyList := mapDelete w.bp.historyList v,
                pinCounts := mapDelete w.bp.pinCounts v } })))) ∧
    (((keysOf w.bp.cache).find? (unpinnedIn w.bp) = none ↔
        ∀ k ∈ keysOf w.bp.cache, pinOf w.bp k ≠ 0) ∧
      ((keysOf w.bp.cache).find? (unpinnedIn w.bp) = none →
        evictFromCache env w = (.error (.bufferPoolOverflow cacheOverflowMsg), w)) ∧
      (∀ v, (keysOf w.bp.cache).find? (unpinnedIn w.bp) = some v →
        pinOf w.bp v = 0 ∧
        (dirtyOf w.bp v = true →
          (env.writePage v ((mapGet w.bp.cache v).getD []) = .ok () →
            evictFromCache env w = (.ok (),
              { bp := { cache := mapDelete w.bp.cache v,
                        historyList := w.bp.historyList,
                        dirtyList := mapDelete w.bp.dirtyList v,
                        pinCounts := mapDelete w.bp.pinCounts v },
                writes := w.writes ++ [(v, (mapGet w.bp.cache v).getD [])] })) ∧
          (∀ e, env.writePage v ((mapGet w.bp.cache v).getD []) = .error e →
            evictFromCache env w = (.error e,
              { w with writes := w.writes ++ [(v, (mapGet w.bp.cache v).getD [])] }))) ∧
        (dirtyOf w.bp v = false →
          evictFromCache env w = (.ok (),
            { w with bp := { w.bp with
                cache := mapDelete w.bp.cache v,
                pinCounts := mapDelete w.bp.pinCounts v } })))) := by
  have hiff : ∀ ks : List Nat, (ks.find? (unpinnedIn w.bp) = none ↔
      ∀ k ∈ ks, pinOf w.bp k ≠ 0) := by
    intro ks
    rw [List.find?_eq_none]
    constructor
    · intro h k hk
      have := h k hk
      simp [unpinnedIn] at this
      have h0 := hpins k
      omega
    · intro h k hk
      have := h k hk
      have h0 := hpins k
      simp [unpinnedIn]
      omega
  have hpin0 : ∀ (ks : List Nat) (v : Nat), ks.find? (unpinnedIn w.bp) = some v →
      pinOf w.bp v = 0 := by
    intro ks v hf
    have := List.find?_some hf
    simp [unpinnedIn] at this
    have h0 := hpins v
    omega
  constructor
  · refine ⟨hiff _, fun hf => evictFromHistory_none hf, ?_⟩
    intro v hf
    refine ⟨hpin0 _ v hf, ?_, ?_⟩
    · intro hd
      constructor
      · intro hw
        rw [evictFromHistory_some hf]
        unfold histEvictAct
        rw [if_pos hd, hw]
      · intro e hw
        rw [evictFromHistory_some hf]
        unfold histEvictAct
        rw [if_pos hd, hw]
    · intro hd
      rw [evictFromHistory_some hf]
      unfold histEvictAct
      rw [if_neg (by simp [hd])]
  · refine ⟨hiff _, fun hf => evictFromCache_none hf, ?_⟩
    intro v hf
    refine ⟨hpin0 _ v hf, ?_, ?_⟩
    · intro hd
      constructor
      · intro hw
        rw [evictFromCache_some hf]
        unfold cacheEvictAct
        rw [if_pos hd, hw]
      · intro e hw
        rw [evictFromCache_some hf]
        unfold cacheEvictAct
        rw [if_pos hd, hw]
    · intro hd
      rw [evictFromCache_some hf]
      unfold cacheEvictAct
      rw [if_neg (by simp [hd])]

/-- A world with one unpinned clean page in each list, for C4's witness. -/
def c4World : World :=
  { bp := { cache := [(3, [8, 8, 8, 8])], historyList := [(1, [9, 9, 9, 9])],
            dirtyList := [], pinCounts := [] },
    writes := [] }

/-- Witness for C4: evicting from the history of `c4World` selects page 1 (the
first and only unpinned entry), issues no write (clean), and removes it. -/
theorem c4_eviction_scan_spec_witness :
    evictFromHistory okEnv c4World = (.ok (),
      { c4World with bp := { c4World.bp with
          historyList := mapDelete c4World.bp.historyList 1,
          pinCounts := mapDelete c4World.bp.pinCounts 1 } }) :=
  (((c4_eviction_scan_spec okEnv c4World (fun k => le_refl 0)).1.2.2) 1 (by decide)).2.2
    (by decide)

/-- The empty buffer-pool world. -/
def emptyWorld : World :=
  { bp := { cache := [], historyList := [], dirtyList := [], pinCounts := [] },
    writes := [] }

/-- A storage environment whose reads always fail. -/
def failReadEnv : StorageEnv :=
  { pageSize := 4, allocatePage := .ok 5,
    readPage := fun _ => .error (.ioError "read failed"),
    writePage := fun _ _ => .ok () }

/-- C3 as stated is false: a failed Storage Manager call inside `getPage`
propagates, but the in-memory state is not identical to the state before the
operation — the unconditional pin-count increment performed at the top of
`getPage` persists.  Evaluated here on an empty pool whose environment fails
every read: `getPage(5)` returns the read error, yet the pin-count map has
changed from `[]` to `[(5, 1)]`. -/
theorem c3_getPage_failure_changes_pin_state :
    (getPage (BPConfig.ofSize 4) failReadEnv 5 emptyWorld).1 = .error (.ioError "read failed") ∧
    (getPage (BPConfig.ofSize 4) failReadEnv 5 emptyWorld).2.bp ≠ emptyWorld.bp := by
  decide

/-- C3 (amended): when a Storage Manager call fails, the Buffer Pool Manager
propagates the error to its caller; `createPage` and the two evictions leave
the in-memory state exactly as before the operation (in particular a failed
eviction write-back leaves the victim resident, dirty, and in its list
position); `getPage` on failure retains the pin-count increment of the
requested page, and, when the failing read was preceded by a history
eviction that had already completed, that eviction's removal — but performs
no other change.  (`flushAll` never observes a storage failure at all, since
it does not await its writes; see C2.) -/
theorem c3_storage_failure_state_amended (cfg : BPConfig) (env : StorageEnv) (w : World) :
    (∀ e, (evictFromHistory env w).1 = .error e → (evictFromHistory env w).2.bp = w.bp) ∧
    (∀ e, (evictFromCache env w).1 = .error e → (evictFromCache env w).2.bp = w.bp) ∧
    (∀ e, (createPage cfg env w).1 = .error e → (createPage cfg env w).2.bp = w.bp) ∧
    (∀ p e, (getPage cfg env p w).1 = .error e →
      ((getPage cfg env p w).2.bp = bumpPin w.bp p ∨
        evictedFromHistory (bumpPin w.bp p) ((getPage cfg env p w).2).bp)) :=
  ⟨fun _ h => evictFromHistory_error_bp h,
   fun _ h => evictFromCache_error_bp h,
   fun _ h => createPage_error_bp h,
   fun _ _ h => getPage_error_bp h⟩

/-- Witness for the amended C3 at the concrete failing read of
`c3_getPage_failure_changes_pin_state`. -/
theorem c3_storage_failure_state_amended_witness :
    (getPage (BPConfig.ofSize 4) failReadEnv 5 emptyWorld).2.bp = bumpPin emptyWorld.bp 5 ∨
      evictedFromHistory (bumpPin emptyWorld.bp 5)
        ((getPage (BPConfig.ofSize 4) failReadEnv 5 emptyWorld).2).bp :=
  (c3_storage_failure_state_amended (BPConfig.ofSize 4) failReadEnv emptyWorld).2.2.2 5
    (.ioError "read failed") (by decide)

/-- C6: every public buffer-pool operation — and the evictions they invoke —
preserves the quiescent invariants with `H = floor(N/4)` and
`C = 3 * floor(N/4)`: each page id resides in at most one of the two lists,
`|history| ≤ H`, `|cache| ≤ C`, and every recorded pin count is ≥ 0 (pin
counts are `Int` here, mirroring the JS number, so non-negativity is a real
invariant maintained by `unpinPage`'s `count > 0` guard).  `createPage` needs
the freshness of `allocatePage` (the allocated id is not currently cached),
which the Storage Manager guarantees by allocating past the end of file. -/
theorem c6_bpm_invariants_preserved (N : Nat) (env : StorageEnv) (w : World)
    (hInv : BPInv (BPConfig.ofSize N) w.bp) :
    (∀ p, BPInv (BPConfig.ofSize N) ((getPage (BPConfig.ofSize N) env p w).2).bp) ∧
    ((∀ i, env.allocatePage = .ok i → i ∉ keysOf w.bp.cache) →
      BPInv (BPConfig.ofSize N) ((createPage (BPConfig.ofSize N) env w).2).bp) ∧
    (∀ p d, BPInv (BPConfig.ofSize N) ((unpinPage p d w).bp)) ∧
    BPInv (BPConfig.ofSize N) ((flushAll w).bp) ∧
    BPInv (BPConfig.ofSize N) ((evictFromHistory env w).2).bp ∧
    BPInv (BPConfig.ofSize N) ((evictFromCache env w).2).bp :=
  ⟨fun p => getPage_inv p hInv,
   fun hf => createPage_inv hInv hf,
   fun p d => unpinPage_inv p d hInv,
   flushAll_inv hInv,
   evict_hist_inv hInv,
   evict_cache_inv hInv⟩

/-- Witness for C6 at `N = 4` from the empty pool. -/
theorem c6_bpm_invariants_preserved_witness :
    BPInv (BPConfig.ofSize 4) ((getPage (BPConfig.ofSize 4) okEnv 3 emptyWorld).2).bp ∧
    BPInv (BPConfig.ofSize 4) ((createPage (BPConfig.ofSize 4) okEnv emptyWorld).2).bp :=
  ⟨(c6_bpm_invariants_preserved 4 okEnv emptyWorld (by decide)).1 3,
   (c6_bpm_invariants_preserved 4 okEnv emptyWorld (by decide)).2.1
     (fun i hi => by injection hi with h; rw [← h]; decide)⟩

/-- C9 as stated is false: the bounded-worker queue does not resolve tasks in
submission order.  Two tasks are enqueued (both dispatched at once, well
under the 16-task ceiling), and a legal schedule completes the second before
the first: the resolution order is `[1, 0]` while the submission order is
`[0, 1]`. -/
theorem c9_bounded_queue_out_of_order_resolution :
    (bqRun [.enq 0, .enq 1, .fin 1, .fin 0]).map (fun s => (s.enqueued, s.resolved)) =
      some ([0, 1], [1, 0]) ∧ ([1, 0] : List Nat) ≠ [0, 1] := by
  decide

/-- C9 (amended): the two I/O queue implementations share the bounded
start-in-order contract — every reachable state of the bounded-worker queue
has at most 16 tasks in flight and has started tasks in exactly submission
order (`started ++ pending = enqueued`); the promise-chained queue keeps at
most one task in flight (hence also at most 16) and additionally settles
tasks in submission order (`resolved` is always a prefix of the submission
order) — but the bounded queue may settle out of order, as the
counterexample shows. -/
theorem c9_queue_contract_amended :
    (∀ (es : List QEvent) (s : BQState), bqRun es = some s →
      s.running.length ≤ maxInFlight ∧ s.started ++ s.pending = s.enqueued) ∧
    (∀ (es : List QEvent) (s : CQState), cqRun es = some s →
      s.running.length ≤ 1 ∧ s.resolved ++ (s.running ++ s.pending) = s.enqueued) :=
  ⟨fun _ _ h => bqRun_inv h, fun _ _ h => cqRun_inv h⟩

/-- Witness for the amended C9 on a concrete two-task schedule of the
bounded queue. -/
theorem c9_queue_contract_amended_witness :
    (⟨[], [0, 1], [0, 1], [], [0, 1]⟩ : BQState).running.length ≤ maxInFlight ∧
    (⟨[], [0, 1], [0, 1], [], [0, 1]⟩ : BQState).started ++
        (⟨[], [0, 1], [0, 1], [], [0, 1]⟩ : BQState).pending =
      (⟨[], [0, 1], [0, 1], [], [0, 1]⟩ : BQState).enqueued :=
  c9_queue_contract_amended.1 [.enq 0, .enq 1] ⟨[], [0, 1], [0, 1], [], [0, 1]⟩ (by decide)

theorem residentBuf_congr {bp1 bp2 : BPState} (p : Nat)
    (hc : bp1.cache = bp2.cache) (hh : bp1.historyList = bp2.historyList) :
    residentBuf bp1 p = residentBuf bp2 p := by
  unfold residentBuf
  rw [hc, hh]

/-- C8: `setUsedSpacePercent(p, v)` followed immediately by
`getUsedSpacePercent(p)` returns `v` for every byte value `v ∈ [0, 255]`;
both operations address the byte at offset `p % pageSize` inside the FSM page
with id `floor(p / pageSize) * pageSize` (visible in the definitions, and in
the second conjunct: after the set, the resident buffer of that FSM page
holds `v` at that offset).  The hypotheses state that resident buffers and
Storage Manager reads are page-sized (true of every buffer the system
creates) and that both operations succeed (their evictions can fail when all
pages are pinned or a write-back fails). -/
theorem c8_fsm_roundtrip (cfg : BPConfig) (env : StorageEnv) (ps p v : Nat) (w : World)
    (hps : 0 < ps) (hv : v < 256)
    (hbc : ∀ e ∈ w.bp.cache, (e.2 : Buf).length = ps)
    (hbh : ∀ e ∈ w.bp.historyList, (e.2 : Buf).length = ps)
    (henv : ∀ q buf, env.readPage q = .ok buf → buf.length = ps)
    (hset : (setUsedSpacePercent cfg env ps p v w).1 = .ok ())
    (hget : exceptIsOk (getUsedSpacePercent cfg env ps p
      ((setUsedSpacePercent cfg env ps p v w).2)).1 = true) :
    (getUsedSpacePercent cfg env ps p ((setUsedSpacePercent cfg env ps p v w).2)).1 = .ok v ∧
    (∃ b, residentBuf ((setUsedSpacePercent cfg env ps p v w).2).bp ((p / ps) * ps) = some b ∧
      readUInt8 b (p % ps) = v) := by
  cases hg1 : getPage cfg env ((p / ps) * ps) w with
  | mk r1 w1 =>
    cases r1 with
    | error e =>
      unfold setUsedSpacePercent at hset
      rw [hg1] at hset
      simp at hset
    | ok b =>
      have hw2 : (setUsedSpacePercent cfg env ps p v w).2 =
          unpinPage ((p / ps) * ps) true
            { w1 with bp := mutatePage w1.bp ((p / ps) * ps) (writeUInt8 b v (p % ps)) } := by
        unfold setUsedSpacePercent
        rw [hg1]
      have hblen : b.length = ps := getPage_ok_len hbc hbh henv hg1
      have hoff : p % ps < b.length := by
        rw [hblen]
        exact Nat.mod_lt _ hps
      have hres2 : residentBuf ((setUsedSpacePercent cfg env ps p v w).2).bp ((p / ps) * ps) =
          some (writeUInt8 b v (p % ps)) := by
        rw [hw2]
        obtain ⟨hcpres, hhpres⟩ := unpinPage_fields ((p / ps) * ps) true
          { w1 with bp := mutatePage w1.bp ((p / ps) * ps) (writeUInt8 b v (p % ps)) }
        rw [residentBuf_congr _ hcpres hhpres]
        exact mutatePage_residentBuf _ _ _
      have hbyte : readUInt8 (writeUInt8 b v (p % ps)) (p % ps) = v := by
        unfold readUInt8 writeUInt8
        exact getD_set_self b (p % ps) v 0 hoff
      refine ⟨?_, ⟨_, hres2, hbyte⟩⟩
      cases hg2 : getPage cfg env ((p / ps) * ps)
          ((setUsedSpacePercent cfg env ps p v w).2) with
      | mk r2 w2 =>
        cases r2 with
        | error e =>
          unfold getUsedSpacePercent at hget
          rw [hg2] at hget
          simp [exceptIsOk] at hget
        | ok r =>
          have hr : r = writeUInt8 b v (p % ps) := getPage_resident_val hres2 hg2
          unfold getUsedSpacePercent
          rw [hg2]
          show Except.ok (readUInt8 r (p % ps)) = Except.ok v
          rw [hr, hbyte]

/-- Witness for C8: `pageSize = 4`, page 6, value 99; the FSM page is
`floor(6/4)*4 = 4` and the offset is `6 % 4 = 2`. -/
theorem c8_fsm_roundtrip_witness :
    (getUsedSpacePercent (BPConfig.ofSize 4) okEnv 4 6
      ((setUsedSpacePercent (BPConfig.ofSize 4) okEnv 4 6 99 emptyWorld).2)).1 = .ok 99 ∧
    (∃ b, residentBuf ((setUsedSpacePercent (BPConfig.ofSize 4) okEnv 4 6 99 emptyWorld).2).bp
        ((6 / 4) * 4) = some b ∧ readUInt8 b (6 % 4) = 99) :=
  c8_fsm_roundtrip (BPConfig.ofSize 4) okEnv 4 6 99 emptyWorld (by decide) (by decide)
    (by decide) (by decide)
    (fun q buf h => by
      have h' : Except.ok (List.replicate 4 0) = Except.ok buf := h
      injection h' with h2
      rw [← h2]
      simp)
    (by decide) (by decide)
